import Mathlib

set_option maxRecDepth 8000

/-!
Verification of the circuit-cutting graph core (`pennylane/transforms/qcut.py`).

The module builds a directed multigraph from a quantum tape
(`tape_to_graph`, helper `_add_operator_node`) and rewrites `WireCut`
marker nodes into `MeasureNode`/`PrepareNode` boundary pairs
(`replace_wire_cut_node`, batch form `replace_wire_cut_nodes`).

Embedding choices:
* Python graph nodes are objects compared by identity.  We model identity
  with an arena-style `NodeId`: nodes present on the tape carry `NodeId.base`
  ids, and the fresh `MeasureNode`/`PrepareNode` objects allocated by
  `replace_wire_cut_node` for marker `m` on wire `w` carry the structurally
  fresh ids `NodeId.cutMeas m.nid w` / `NodeId.cutPrep m.nid w`.
  Freshness of Python allocation is reflected by explicit freshness
  hypotheses (`FreshCut`) or derived from the `Built` invariant.
* A networkx `MultiDiGraph` is a list of (node, order-attribute) pairs and
  a list of edges `(source, target, wire-attribute)`; parallel edges are
  kept as duplicate list entries, exactly as a multigraph requires.
* `wire_latest_node` is the dictionary `{w: None for w in tape.wires}`;
  we model it as a total function `Nat → Option Node` (initially
  constantly `none`).  This coincides with the source whenever every wire
  used by an operation or measurement is a key of the dictionary, which
  `Tape.Wf` records.
* The `order` local of `tape_to_graph` is only bound by iterating
  `tape.operations`; on an empty operation list the post-loop `order += 1`
  raises, which we model by returning `none`.
* `graph.pred[node]` raises a lookup error when `node` is absent, modelled
  by `replace_wire_cut_node` returning `none`.
-/

inductive NodeKind where
  | op
  | meas
  | wireCut
  | measureNode
  | prepareNode
  deriving DecidableEq

inductive NodeId where
  | base : Nat → NodeId
  | cutMeas : NodeId → Nat → NodeId
  | cutPrep : NodeId → Nat → NodeId
  deriving DecidableEq

structure Node where
  nid : NodeId
  kind : NodeKind
  wires : List Nat
  deriving DecidableEq

abbrev Edge := Node × Node × Nat

structure Graph where
  nodes : List (Node × Nat)
  edges : List Edge
  deriving DecidableEq

def Graph.empty : Graph := ⟨[], []⟩

def Graph.keys (g : Graph) : List Node := g.nodes.map (fun p => p.1)

/-- networkx `add_node(n, order=ord)`: update the attribute when the node is
already present, append it otherwise. -/
def Graph.addNode (g : Graph) (n : Node) (ord : Nat) : Graph :=
  if n ∈ g.keys then
    { g with nodes := g.nodes.map (fun p => if p.1 = n then (n, ord) else p) }
  else
    { g with nodes := g.nodes ++ [(n, ord)] }

/-- networkx `add_edge(u, v, wire=w)`.  (networkx would also insert a missing
endpoint as an attribute-less node; every call site in `qcut.py` passes
endpoints already present in the graph, which the self-loop/endpoint
hypotheses of the theorems below record.) -/
def Graph.addEdge (g : Graph) (u v : Node) (w : Nat) : Graph :=
  { g with edges := g.edges ++ [(u, v, w)] }

/-- networkx `remove_node(n)`: drop the node together with all incident
edges. -/
def Graph.removeNode (g : Graph) (n : Node) : Graph :=
  { nodes := g.nodes.filter (fun p => p.1 ≠ n),
    edges := g.edges.filter (fun e => e.1 ≠ n ∧ e.2.1 ≠ n) }

def ordLookup (l : List (Node × Nat)) (n : Node) : Nat :=
  match l.find? (fun p => p.1 = n) with
  | some p => p.2
  | none => 0

/-- `graph.nodes[n]["order"]`. -/
def Graph.orderOf (g : Graph) (n : Node) : Nat := ordLookup g.nodes n

/-- `predecessor_on_wire` of `replace_wire_cut_node`: scan the incoming
edges of `node` and record, per wire label, the edge source (later entries
overwrite earlier ones, as for the Python dict). -/
def predecessorOnWire (g : Graph) (node : Node) : Nat → Option Node :=
  g.edges.foldl
    (fun acc e =>
      if e.2.1 = node then fun w => if w = e.2.2 then some e.1 else acc w
      else acc)
    (fun _ => none)

/-- `successor_on_wire` of `replace_wire_cut_node`. -/
def successorOnWire (g : Graph) (node : Node) : Nat → Option Node :=
  g.edges.foldl
    (fun acc e =>
      if e.1 = node then fun w => if w = e.2.2 then some e.2.1 else acc w
      else acc)
    (fun _ => none)

/-- The fresh `MeasureNode(wires=w)` allocated for marker `node` on `w`. -/
def cutMeasNode (node : Node) (w : Nat) : Node :=
  ⟨NodeId.cutMeas node.nid w, NodeKind.measureNode, [w]⟩

/-- The fresh `PrepareNode(wires=w)` allocated for marker `node` on `w`. -/
def cutPrepNode (node : Node) (w : Nat) : Node :=
  ⟨NodeId.cutPrep node.nid w, NodeKind.prepareNode, [w]⟩

/-- Body of the `for wire in node.wires` loop of `replace_wire_cut_node`. -/
def cutStep (predOn succOn : Nat → Option Node) (node : Node) (ord : Nat)
    (h : Graph) (w : Nat) : Graph :=
  let meas := cutMeasNode node w
  let prep := cutPrepNode node w
  let h1 := (h.addNode meas ord).addNode prep ord
  let h2 := h1.addEdge meas prep w
  let h3 :=
    match predOn w with
    | some p => h2.addEdge p meas w
    | none => h2
  match succOn w with
  | some s => h3.addEdge prep s w
  | none => h3

/-- `replace_wire_cut_node(node, graph)`: capture per-wire predecessors and
successors and the marker's order, remove the marker, then add a
measure/prepare pair per wire.  `none` models the lookup error raised by
`graph.pred[node]` when the node is absent. -/
def replace_wire_cut_node (node : Node) (g : Graph) : Option Graph :=
  if node ∈ g.keys then
    some (node.wires.foldl
      (cutStep (predecessorOnWire g node) (successorOnWire g node) node
        (g.orderOf node))
      (g.removeNode node))
  else none

/-- The `for op in list(graph.nodes)` loop of `replace_wire_cut_nodes`,
over the snapshot of the node list taken at entry. -/
def replaceLoop : Graph → List Node → Option Graph
  | g, [] => some g
  | g, op :: ops =>
    if op.kind = NodeKind.wireCut then
      match replace_wire_cut_node op g with
      | some g2 => replaceLoop g2 ops
      | none => none
    else replaceLoop g ops

/-- `replace_wire_cut_nodes(graph)`. -/
def replace_wire_cut_nodes (g : Graph) : Option Graph :=
  replaceLoop g g.keys

structure Measurement where
  node : Node
  tensor : Option (List Node)
  deriving DecidableEq

structure Tape where
  wires : List Nat
  operations : List Node
  measurements : List Measurement
  deriving DecidableEq

/-- The graph nodes contributed by one measurement: the per-term
`MeasurementProcess` nodes when the observable is a `Tensor`, otherwise the
measurement itself. -/
def measNodes (m : Measurement) : List Node :=
  match m.tensor with
  | some ts => ts
  | none => [m.node]

/-- Body of the `for wire in op.wires` loop of `_add_operator_node`: draw an
edge from the latest node on the wire (when there is one) and update the
latest-node pointer. -/
def addOpStep (op : Node) (s : Graph × (Nat → Option Node)) (w : Nat) :
    Graph × (Nat → Option Node) :=
  match s.2 w with
  | some parent =>
    (s.1.addEdge parent op w, fun x => if x = w then some op else s.2 x)
  | none => (s.1, fun x => if x = w then some op else s.2 x)

/-- `_add_operator_node(graph, op, order, wire_latest_node)`. -/
def add_operator_node (g : Graph) (op : Node) (ord : Nat)
    (wln : Nat → Option Node) : Graph × (Nat → Option Node) :=
  op.wires.foldl (addOpStep op) (g.addNode op ord, wln)

/-- The `for order, op in enumerate(tape.operations)` loop; the returned
counter is the value of `order` after the post-loop `order += 1`. -/
def buildOps : Graph → (Nat → Option Node) → Nat → List Node →
    Graph × (Nat → Option Node) × Nat
  | g, wln, ord, [] => (g, wln, ord)
  | g, wln, ord, op :: ops =>
    let s := add_operator_node g op ord wln
    buildOps s.1 s.2 (ord + 1) ops

/-- The `for o in obs.obs` loop: every term is added with the same order. -/
def addTerms : Graph → (Nat → Option Node) → Nat → List Node →
    Graph × (Nat → Option Node)
  | g, wln, _, [] => (g, wln)
  | g, wln, ord, t :: ts =>
    let s := add_operator_node g t ord wln
    addTerms s.1 s.2 ord ts

/-- The `for m in tape.measurements` loop.  In the `Tensor` branch the order
counter is left unchanged; in the other branch it is incremented after the
node is added. -/
def buildMeas : Graph → (Nat → Option Node) → Nat → List Measurement →
    Graph × (Nat → Option Node) × Nat
  | g, wln, ord, [] => (g, wln, ord)
  | g, wln, ord, m :: ms =>
    match m.tensor with
    | some ts =>
      let s := addTerms g wln ord ts
      buildMeas s.1 s.2 ord ms
    | none =>
      let s := add_operator_node g m.node ord wln
      buildMeas s.1 s.2 (ord + 1) ms

/-- `tape_to_graph(tape)`.  With an empty operation list the Python local
`order` is unbound at the post-loop `order += 1` and the call raises, which
`none` models. -/
def tape_to_graph (tape : Tape) : Option Graph :=
  if tape.operations.isEmpty then none
  else
    let s := buildOps Graph.empty (fun _ => none) 0 tape.operations
    some (buildMeas s.1 s.2.1 s.2.2 tape.measurements).1

/-! ### Well-formedness predicates -/

def NodeId.isBase : NodeId → Bool
  | .base _ => true
  | _ => false

def catMap (f : α → List β) : List α → List β
  | [] => []
  | a :: l => f a ++ catMap f l

/-- All nodes that `tape_to_graph` adds to the graph. -/
def addedNodes (tape : Tape) : List Node :=
  tape.operations ++ catMap measNodes tape.measurements

/-- Well-formed tape: the added nodes are distinct objects (distinct ids)
predating any boundary-node allocation (base ids), each node's wire list has
no duplicates, and every used wire is a key of the `wire_latest_node`
dictionary. -/
def Tape.Wf (tape : Tape) : Prop :=
  ((addedNodes tape).map (fun n => n.nid)).Nodup
    ∧ (∀ n ∈ addedNodes tape, n.wires.Nodup)
    ∧ (∀ n ∈ addedNodes tape, n.nid.isBase = true)
    ∧ (∀ n ∈ addedNodes tape, ∀ w ∈ n.wires, w ∈ tape.wires)

instance (tape : Tape) : Decidable tape.Wf := by
  unfold Tape.Wf; infer_instance

/-- No node has two distinct wire-`w` predecessors. -/
def NoTwoPreds (g : Graph) : Prop :=
  ∀ e1 ∈ g.edges, ∀ e2 ∈ g.edges,
    e1.2.1 = e2.2.1 → e1.2.2 = e2.2.2 → e1.1 = e2.1

/-- No node has two distinct wire-`w` successors. -/
def NoTwoSuccs (g : Graph) : Prop :=
  ∀ e1 ∈ g.edges, ∀ e2 ∈ g.edges,
    e1.1 = e2.1 → e1.2.2 = e2.2.2 → e1.2.1 = e2.2.1

/-- The per-wire chain invariant of the spec, as glossed there: restricted
to edges labeled `w`, no node has two distinct predecessors and no node has
two distinct successors. -/
def ChainInv (g : Graph) : Prop := NoTwoPreds g ∧ NoTwoSuccs g

instance (g : Graph) : Decidable (NoTwoPreds g) := by
  unfold NoTwoPreds; infer_instance

instance (g : Graph) : Decidable (NoTwoSuccs g) := by
  unfold NoTwoSuccs; infer_instance

instance (g : Graph) : Decidable (ChainInv g) := by
  unfold ChainInv; infer_instance

/-- Every edge endpoint is a node of the graph (networkx guarantees this by
construction). -/
def EndpointsMem (g : Graph) : Prop :=
  ∀ e ∈ g.edges, e.1 ∈ g.keys ∧ e.2.1 ∈ g.keys

/-- The graph has no self-loop edges (true of every graph this module
builds). -/
def NoSelfLoop (g : Graph) : Prop := ∀ e ∈ g.edges, e.1 ≠ e.2.1

instance (g : Graph) : Decidable (EndpointsMem g) := by
  unfold EndpointsMem; infer_instance

instance (g : Graph) : Decidable (NoSelfLoop g) := by
  unfold NoSelfLoop; infer_instance

/-- The boundary nodes `replace_wire_cut_node` would allocate for `node` are
not already present: the arena-model counterpart of Python allocating fresh
objects. -/
def FreshCut (g : Graph) (node : Node) : Prop :=
  ∀ w ∈ node.wires, ∀ m ∈ g.keys,
    m ≠ cutMeasNode node w ∧ m ≠ cutPrepNode node w

instance (g : Graph) (node : Node) : Decidable (FreshCut g node) := by
  unfold FreshCut; infer_instance

/-- Order values never decrease along a directed edge. -/
def OrderMono (g : Graph) : Prop :=
  ∀ e ∈ g.edges, g.orderOf e.1 ≤ g.orderOf e.2.1

instance (g : Graph) : Decidable (OrderMono g) := by
  unfold OrderMono; infer_instance

/-! ### Easy claims: C6, C7, C8 -/

theorem replaceLoop_no_markers (g : Graph) (l : List Node)
    (h : ∀ n ∈ l, n.kind ≠ NodeKind.wireCut) : replaceLoop g l = some g := by
  induction l with
  | nil => rfl
  | cons a l ih =>
    have ha : a.kind ≠ NodeKind.wireCut := h a (by exact List.mem_cons_self a l)
    have ht : ∀ n ∈ l, n.kind ≠ NodeKind.wireCut := fun n hn => h n (List.mem_cons_of_mem a hn)
    simp [replaceLoop, ha, ih ht]

/-- C6: replacing a node that is absent from the graph fails with a lookup
error (modelled as `none`): `graph.pred[node]` raises before any mutation. -/
theorem replace_wire_cut_node_absent (g : Graph) (node : Node)
    (h : node ∉ g.keys) : replace_wire_cut_node node g = none := by
  simp [replace_wire_cut_node, h]

theorem replace_wire_cut_node_absent_witness :
    replace_wire_cut_node ⟨NodeId.base 5, NodeKind.wireCut, [0]⟩
      ⟨[(⟨NodeId.base 0, NodeKind.op, [0]⟩, 0)], []⟩ = none :=
  replace_wire_cut_node_absent _ _ (by decide)

/-- C7: on a graph containing no `WireCut` node, `replace_wire_cut_nodes`
returns the graph unchanged — same nodes, edges and attributes. -/
theorem replace_wire_cut_nodes_no_markers (g : Graph)
    (h : ∀ n ∈ g.keys, n.kind ≠ NodeKind.wireCut) :
    replace_wire_cut_nodes g = some g :=
  replaceLoop_no_markers g g.keys h

theorem replace_wire_cut_nodes_no_markers_witness :
    replace_wire_cut_nodes
      ⟨[(⟨NodeId.base 0, NodeKind.op, [0]⟩, 0),
        (⟨NodeId.base 1, NodeKind.meas, [0]⟩, 1)],
       [(⟨NodeId.base 0, NodeKind.op, [0]⟩, ⟨NodeId.base 1, NodeKind.meas, [0]⟩, 0)]⟩ =
      some ⟨[(⟨NodeId.base 0, NodeKind.op, [0]⟩, 0),
        (⟨NodeId.base 1, NodeKind.meas, [0]⟩, 1)],
       [(⟨NodeId.base 0, NodeKind.op, [0]⟩, ⟨NodeId.base 1, NodeKind.meas, [0]⟩, 0)]⟩ :=
  replace_wire_cut_nodes_no_markers _ (by decide)

/-- C8: with an empty operation sequence `tape_to_graph` fails before
returning (the `order` local is only bound by the operations loop, so the
post-loop `order += 1` raises), even when measurements are present; a
non-empty operation list is an unstated precondition. -/
theorem tape_to_graph_empty_ops (tape : Tape) (h : tape.operations = []) :
    tape_to_graph tape = none := by
  simp [tape_to_graph, h]

theorem tape_to_graph_empty_ops_witness :
    tape_to_graph
      ⟨[0], [],
       [⟨⟨NodeId.base 0, NodeKind.meas, [0]⟩, none⟩]⟩ = none :=
  tape_to_graph_empty_ops _ (by decide)

/-! ### Identity arithmetic for the arena ids -/

def NodeId.size : NodeId → Nat
  | .base _ => 1
  | .cutMeas p _ => p.size + 1
  | .cutPrep p _ => p.size + 1

theorem NodeId.ne_cutMeas (p : NodeId) (w : Nat) : p ≠ NodeId.cutMeas p w := by
  intro h
  have h2 := congrArg NodeId.size h
  simp only [NodeId.size] at h2
  omega

theorem NodeId.ne_cutPrep (p : NodeId) (w : Nat) : p ≠ NodeId.cutPrep p w := by
  intro h
  have h2 := congrArg NodeId.size h
  simp only [NodeId.size] at h2
  omega

theorem node_ne_cutMeasNode (node : Node) (w : Nat) : node ≠ cutMeasNode node w := by
  intro h
  exact NodeId.ne_cutMeas node.nid w (congrArg Node.nid h)

theorem node_ne_cutPrepNode (node : Node) (w : Nat) : node ≠ cutPrepNode node w := by
  intro h
  exact NodeId.ne_cutPrep node.nid w (congrArg Node.nid h)

theorem cutMeasNode_inj {node : Node} {w w2 : Nat}
    (h : cutMeasNode node w = cutMeasNode node w2) : w = w2 := by
  simpa [cutMeasNode] using h

theorem cutPrepNode_inj {node : Node} {w w2 : Nat}
    (h : cutPrepNode node w = cutPrepNode node w2) : w = w2 := by
  simpa [cutPrepNode] using h

theorem cutMeasNode_ne_cutPrepNode (n1 n2 : Node) (w w2 : Nat) :
    cutMeasNode n1 w ≠ cutPrepNode n2 w2 := by
  simp [cutMeasNode, cutPrepNode]

/-! ### Basic graph lemmas -/

theorem Graph.addNode_edges (g : Graph) (n : Node) (ord : Nat) :
    (g.addNode n ord).edges = g.edges := by
  unfold Graph.addNode
  split <;> rfl

theorem Graph.addNode_nodes_of_not_mem {g : Graph} {n : Node} (ord : Nat)
    (h : n ∉ g.keys) : (g.addNode n ord).nodes = g.nodes ++ [(n, ord)] := by
  unfold Graph.addNode
  rw [if_neg h]

theorem Graph.keys_def (g : Graph) : g.keys = g.nodes.map (fun p => p.1) := rfl

theorem mem_keys_iff {g : Graph} {m : Node} :
    m ∈ g.keys ↔ ∃ o, (m, o) ∈ g.nodes := by
  simp only [Graph.keys, List.mem_map]
  constructor
  · rintro ⟨⟨a, o⟩, hp, rfl⟩
    exact ⟨o, hp⟩
  · rintro ⟨o, ho⟩
    exact ⟨(m, o), ho, rfl⟩

theorem removeNode_keys_mem {g : Graph} {node m : Node} :
    m ∈ (g.removeNode node).keys ↔ m ∈ g.keys ∧ m ≠ node := by
  simp only [Graph.removeNode, Graph.keys, List.mem_map, List.mem_filter,
    decide_eq_true_eq]
  constructor
  · rintro ⟨p, ⟨hp, hne⟩, rfl⟩
    exact ⟨⟨p, hp, rfl⟩, hne⟩
  · rintro ⟨⟨p, hp, rfl⟩, hne⟩
    exact ⟨p, ⟨hp, hne⟩, rfl⟩

theorem removeNode_edges_mem {g : Graph} {node : Node} {e : Edge} :
    e ∈ (g.removeNode node).edges ↔ e ∈ g.edges ∧ e.1 ≠ node ∧ e.2.1 ≠ node := by
  simp [Graph.removeNode, List.mem_filter]

/-! ### Spec lemmas for `predecessor_on_wire` / `successor_on_wire` -/

theorem predFold_some {node : Node} :
    ∀ (l : List Edge) (acc : Nat → Option Node) (w : Nat) (u : Node),
      (l.foldl
        (fun acc e =>
          if e.2.1 = node then fun x => if x = e.2.2 then some e.1 else acc x
          else acc)
        acc) w = some u →
      (u, node, w) ∈ l ∨ acc w = some u := by
  intro l
  induction l with
  | nil => intro acc w u h; exact Or.inr h
  | cons e l ih =>
    intro acc w u h
    rw [List.foldl_cons] at h
    rcases ih _ _ _ h with hl | hacc
    · exact Or.inl (List.mem_cons_of_mem _ hl)
    · by_cases he : e.2.1 = node
      · simp only [if_pos he] at hacc
        by_cases hw : w = e.2.2
        · simp only [if_pos hw] at hacc
          obtain ⟨a, b, c⟩ := e
          cases hacc
          simp only at he hw
          subst he hw
          exact Or.inl (List.mem_cons_self _ _)
        · simp only [if_neg hw] at hacc
          exact Or.inr hacc
      · simp only [if_neg he] at hacc
        exact Or.inr hacc

theorem predFold_none {node : Node} :
    ∀ (l : List Edge) (acc : Nat → Option Node) (w : Nat),
      (l.foldl
        (fun acc e =>
          if e.2.1 = node then fun x => if x = e.2.2 then some e.1 else acc x
          else acc)
        acc) w = none →
      acc w = none ∧ ∀ u : Node, (u, node, w) ∉ l := by
  intro l
  induction l with
  | nil => intro acc w h; exact ⟨h, by simp⟩
  | cons e l ih =>
    intro acc w h
    rw [List.foldl_cons] at h
    obtain ⟨hstep, hl⟩ := ih _ _ h
    by_cases he : e.2.1 = node
    · simp only [if_pos he] at hstep
      by_cases hw : w = e.2.2
      · simp only [if_pos hw] at hstep
        exact absurd hstep (Option.some_ne_none _)
      · simp only [if_neg hw] at hstep
        refine ⟨hstep, ?_⟩
        intro u hu
        rcases List.mem_cons.mp hu with hEq | hmem
        · obtain ⟨a, b, c⟩ := e
          cases hEq
          exact hw rfl
        · exact hl u hmem
    · simp only [if_neg he] at hstep
      refine ⟨hstep, ?_⟩
      intro u hu
      rcases List.mem_cons.mp hu with hEq | hmem
      · obtain ⟨a, b, c⟩ := e
        cases hEq
        exact he rfl
      · exact hl u hmem

theorem predOn_some_mem {g : Graph} {node u : Node} {w : Nat}
    (h : predecessorOnWire g node w = some u) : (u, node, w) ∈ g.edges := by
  rcases predFold_some g.edges _ w u h with hm | hinit
  · exact hm
  · cases hinit

theorem predOn_none_not_mem {g : Graph} {node : Node} {w : Nat}
    (h : predecessorOnWire g node w = none) :
    ∀ u : Node, (u, node, w) ∉ g.edges :=
  (predFold_none g.edges _ w h).2

theorem predOn_some_of_mem {g : Graph} {node u : Node} {w : Nat}
    (hchain : NoTwoPreds g) (h : (u, node, w) ∈ g.edges) :
    predecessorOnWire g node w = some u := by
  cases hp : predecessorOnWire g node w with
  | none => exact absurd h (predOn_none_not_mem hp u)
  | some v =>
    have hv := predOn_some_mem hp
    have := hchain _ hv _ h rfl rfl
    simp only at this
    rw [this]

theorem succFold_some {node : Node} :
    ∀ (l : List Edge) (acc : Nat → Option Node) (w : Nat) (v : Node),
      (l.foldl
        (fun acc e =>
          if e.1 = node then fun x => if x = e.2.2 then some e.2.1 else acc x
          else acc)
        acc) w = some v →
      (node, v, w) ∈ l ∨ acc w = some v := by
  intro l
  induction l with
  | nil => intro acc w v h; exact Or.inr h
  | cons e l ih =>
    intro acc w v h
    rw [List.foldl_cons] at h
    rcases ih _ _ _ h with hl | hacc
    · exact Or.inl (List.mem_cons_of_mem _ hl)
    · by_cases he : e.1 = node
      · simp only [if_pos he] at hacc
        by_cases hw : w = e.2.2
        · simp only [if_pos hw] at hacc
          obtain ⟨a, b, c⟩ := e
          cases hacc
          simp only at he hw
          subst he hw
          exact Or.inl (List.mem_cons_self _ _)
        · simp only [if_neg hw] at hacc
          exact Or.inr hacc
      · simp only [if_neg he] at hacc
        exact Or.inr hacc

theorem succFold_none {node : Node} :
    ∀ (l : List Edge) (acc : Nat → Option Node) (w : Nat),
      (l.foldl
        (fun acc e =>
          if e.1 = node then fun x => if x = e.2.2 then some e.2.1 else acc x
          else acc)
        acc) w = none →
      acc w = none ∧ ∀ v : Node, (node, v, w) ∉ l := by
  intro l
  induction l with
  | nil => intro acc w h; exact ⟨h, by simp⟩
  | cons e l ih =>
    intro acc w h
    rw [List.foldl_cons] at h
    obtain ⟨hstep, hl⟩ := ih _ _ h
    by_cases he : e.1 = node
    · simp only [if_pos he] at hstep
      by_cases hw : w = e.2.2
      · simp only [if_pos hw] at hstep
        exact absurd hstep (Option.some_ne_none _)
      · simp only [if_neg hw] at hstep
        refine ⟨hstep, ?_⟩
        intro v hv
        rcases List.mem_cons.mp hv with hEq | hmem
        · obtain ⟨a, b, c⟩ := e
          cases hEq
          exact hw rfl
        · exact hl v hmem
    · simp only [if_neg he] at hstep
      refine ⟨hstep, ?_⟩
      intro v hv
      rcases List.mem_cons.mp hv with hEq | hmem
      · obtain ⟨a, b, c⟩ := e
        cases hEq
        exact he rfl
      · exact hl v hmem

theorem succOn_some_mem {g : Graph} {node v : Node} {w : Nat}
    (h : successorOnWire g node w = some v) : (node, v, w) ∈ g.edges := by
  rcases succFold_some g.edges _ w v h with hm | hinit
  · exact hm
  · cases hinit

theorem succOn_none_not_mem {g : Graph} {node : Node} {w : Nat}
    (h : successorOnWire g node w = none) :
    ∀ v : Node, (node, v, w) ∉ g.edges :=
  (succFold_none g.edges _ w h).2

theorem succOn_some_of_mem {g : Graph} {node v : Node} {w : Nat}
    (hchain : NoTwoSuccs g) (h : (node, v, w) ∈ g.edges) :
    successorOnWire g node w = some v := by
  cases hs : successorOnWire g node w with
  | none => exact absurd h (succOn_none_not_mem hs v)
  | some v2 =>
    have hv := succOn_some_mem hs
    have := hchain _ hv _ h rfl rfl
    simp only at this
    rw [this]

/-! ### Characterization of `replace_wire_cut_node` -/

theorem mem_catMap {α β : Type} {f : α → List β} :
    ∀ {l : List α} {b : β}, b ∈ catMap f l ↔ ∃ a ∈ l, b ∈ f a := by
  intro l
  induction l with
  | nil => simp [catMap]
  | cons a l ih => intro b; simp [catMap, ih]

theorem Graph.keys_addNode_not_mem {g : Graph} {n : Node} (ord : Nat)
    (h : n ∉ g.keys) : (g.addNode n ord).keys = g.keys ++ [n] := by
  unfold Graph.keys
  rw [Graph.addNode_nodes_of_not_mem ord h]
  simp [Graph.keys]

/-- The edges one wire-iteration of `replace_wire_cut_node` appends:
sink→source, then the rewired predecessor edge (when present), then the
rewired successor edge (when present). -/
def cutEdges (p s : Option Node) (node : Node) (w : Nat) : List Edge :=
  (cutMeasNode node w, cutPrepNode node w, w) ::
    ((match p with
      | some u => [(u, cutMeasNode node w, w)]
      | none => []) ++
     (match s with
      | some v => [(cutPrepNode node w, v, w)]
      | none => []))

theorem cutStep_spec (predOn succOn : Nat → Option Node) (node : Node)
    (ord : Nat) (h : Graph) (w : Nat)
    (hm : cutMeasNode node w ∉ h.keys) (hp : cutPrepNode node w ∉ h.keys) :
    (cutStep predOn succOn node ord h w).nodes
        = h.nodes ++ [(cutMeasNode node w, ord), (cutPrepNode node w, ord)]
      ∧ (cutStep predOn succOn node ord h w).edges
        = h.edges ++ cutEdges (predOn w) (succOn w) node w := by
  have e1 : (h.addNode (cutMeasNode node w) ord).nodes
      = h.nodes ++ [(cutMeasNode node w, ord)] :=
    Graph.addNode_nodes_of_not_mem ord hm
  have k1 : (h.addNode (cutMeasNode node w) ord).keys
      = h.keys ++ [cutMeasNode node w] :=
    Graph.keys_addNode_not_mem ord hm
  have hp2 : cutPrepNode node w ∉ (h.addNode (cutMeasNode node w) ord).keys := by
    rw [k1]
    simp only [List.mem_append, List.mem_singleton]
    rintro (hin | heq)
    · exact hp hin
    · exact cutMeasNode_ne_cutPrepNode node node w w heq.symm
  have e2 : ((h.addNode (cutMeasNode node w) ord).addNode (cutPrepNode node w) ord).nodes
      = h.nodes ++ [(cutMeasNode node w, ord), (cutPrepNode node w, ord)] := by
    rw [Graph.addNode_nodes_of_not_mem ord hp2, e1]
    simp
  have e3 : ((h.addNode (cutMeasNode node w) ord).addNode (cutPrepNode node w) ord).edges
      = h.edges := by
    rw [Graph.addNode_edges, Graph.addNode_edges]
  rcases hpp : predOn w with _ | p <;> rcases hss : succOn w with _ | s <;>
    refine ⟨?_, ?_⟩ <;>
    simp [cutStep, hpp, hss, cutEdges, Graph.addEdge, e2, e3]

theorem cutFold_spec (predOn succOn : Nat → Option Node) (node : Node)
    (ord : Nat) :
    ∀ (ws : List Nat) (h : Graph), ws.Nodup →
      (∀ w ∈ ws, cutMeasNode node w ∉ h.keys ∧ cutPrepNode node w ∉ h.keys) →
      (ws.foldl (cutStep predOn succOn node ord) h).nodes
          = h.nodes ++ catMap
              (fun w => [(cutMeasNode node w, ord), (cutPrepNode node w, ord)]) ws
        ∧ (ws.foldl (cutStep predOn succOn node ord) h).edges
          = h.edges ++ catMap
              (fun w => cutEdges (predOn w) (succOn w) node w) ws := by
  intro ws
  induction ws with
  | nil => intro h _ _; simp [catMap]
  | cons w ws ih =>
    intro h hnd hfresh
    have hw := hfresh w (List.mem_cons_self w ws)
    have hspec := cutStep_spec predOn succOn node ord h w hw.1 hw.2
    have hk2 : (cutStep predOn succOn node ord h w).keys
        = h.keys ++ [cutMeasNode node w, cutPrepNode node w] := by
      unfold Graph.keys
      rw [hspec.1]
      simp [Graph.keys]
    have hfresh2 : ∀ w2 ∈ ws,
        cutMeasNode node w2 ∉ (cutStep predOn succOn node ord h w).keys
          ∧ cutPrepNode node w2 ∉ (cutStep predOn succOn node ord h w).keys := by
      intro w2 hw2
      have hne : w2 ≠ w := by
        intro hEq
        subst hEq
        exact (List.nodup_cons.mp hnd).1 hw2
      have hfr := hfresh w2 (List.mem_cons_of_mem _ hw2)
      rw [hk2]
      constructor
      · simp only [List.mem_append, List.mem_cons, List.mem_singleton,
          List.not_mem_nil]
        rintro (hin | hq1 | hq2 | hq3)
        · exact hfr.1 hin
        · exact hne (cutMeasNode_inj hq1)
        · exact cutMeasNode_ne_cutPrepNode node node w2 w hq2
        · cases hq3
      · simp only [List.mem_append, List.mem_cons, List.mem_singleton,
          List.not_mem_nil]
        rintro (hin | hq1 | hq2 | hq3)
        · exact hfr.2 hin
        · exact cutMeasNode_ne_cutPrepNode node node w w2 hq1.symm
        · exact hne (cutPrepNode_inj hq2)
        · cases hq3
    have ih2 := ih (cutStep predOn succOn node ord h w)
      (List.nodup_cons.mp hnd).2 hfresh2
    rw [List.foldl_cons]
    constructor
    · rw [ih2.1, hspec.1]
      simp [catMap, List.append_assoc]
    · rw [ih2.2, hspec.2]
      simp [catMap, List.append_assoc]

theorem replace_spec {g g2 : Graph} {node : Node}
    (hrep : replace_wire_cut_node node g = some g2)
    (hnd : node.wires.Nodup) (hfresh : FreshCut g node) :
    g2.nodes = (g.removeNode node).nodes
        ++ catMap (fun w => [(cutMeasNode node w, g.orderOf node),
            (cutPrepNode node w, g.orderOf node)]) node.wires
      ∧ g2.edges = (g.removeNode node).edges
        ++ catMap (fun w => cutEdges (predecessorOnWire g node w)
            (successorOnWire g node w) node w) node.wires
      ∧ node ∈ g.keys := by
  unfold replace_wire_cut_node at hrep
  by_cases hm : node ∈ g.keys
  · rw [if_pos hm] at hrep
    have hfresh2 : ∀ w ∈ node.wires,
        cutMeasNode node w ∉ (g.removeNode node).keys
          ∧ cutPrepNode node w ∉ (g.removeNode node).keys := by
      intro w hw
      constructor
      · intro hin
        have := (removeNode_keys_mem.mp hin).1
        exact (hfresh w hw _ this).1 rfl
      · intro hin
        have := (removeNode_keys_mem.mp hin).1
        exact (hfresh w hw _ this).2 rfl
    have hc := cutFold_spec (predecessorOnWire g node) (successorOnWire g node)
      node (g.orderOf node) node.wires (g.removeNode node) hnd hfresh2
    cases hrep
    exact ⟨hc.1, hc.2, hm⟩
  · rw [if_neg hm] at hrep
    cases hrep

/-! ### `ordLookup` lemmas -/

theorem ordLookup_cons_eq {q : Node × Nat} {l : List (Node × Nat)} {n : Node}
    (h : q.1 = n) : ordLookup (q :: l) n = q.2 := by
  simp [ordLookup, List.find?_cons, h]

theorem ordLookup_cons_ne {q : Node × Nat} {l : List (Node × Nat)} {n : Node}
    (h : q.1 ≠ n) : ordLookup (q :: l) n = ordLookup l n := by
  simp [ordLookup, List.find?_cons, h]

theorem ordLookup_append_not_mem {l1 l2 : List (Node × Nat)} {n : Node}
    (h : ∀ p ∈ l1, p.1 ≠ n) : ordLookup (l1 ++ l2) n = ordLookup l2 n := by
  unfold ordLookup
  rw [List.find?_append]
  have hn : l1.find? (fun p => p.1 = n) = none := by
    rw [List.find?_eq_none]
    intro p hp
    simp [h p hp]
  rw [hn, Option.none_or]

theorem ordLookup_mem_append {l1 l2 : List (Node × Nat)} {n : Node}
    (h : n ∈ l1.map (fun p => p.1)) :
    ordLookup (l1 ++ l2) n = ordLookup l1 n := by
  unfold ordLookup
  rw [List.find?_append]
  have hs : (l1.find? (fun p => p.1 = n)).isSome := by
    rw [List.find?_isSome]
    rcases List.mem_map.mp h with ⟨p, hp, rfl⟩
    exact ⟨p, hp, by simp⟩
  rcases Option.isSome_iff_exists.mp hs with ⟨p, hp⟩
  rw [hp]
  simp [Option.or]

theorem ordLookup_filter_ne {node n : Node} (hne : n ≠ node) :
    ∀ l : List (Node × Nat),
      ordLookup (l.filter (fun p => p.1 ≠ node)) n = ordLookup l n := by
  intro l
  induction l with
  | nil => rfl
  | cons q l ih =>
    rw [List.filter_cons]
    by_cases hq : q.1 = node
    · have hnot : ¬((fun p => (decide (p.1 ≠ node))) q = true) := by simp [hq]
      rw [if_neg hnot, ih, ordLookup_cons_ne]
      rw [hq]
      exact fun hEq => hne hEq.symm
    · have hyes : ((fun p => (decide (p.1 ≠ node))) q = true) := by simp [hq]
      rw [if_pos hyes]
      by_cases hqn : q.1 = n
      · rw [ordLookup_cons_eq hqn, ordLookup_cons_eq hqn]
      · rw [ordLookup_cons_ne hqn, ordLookup_cons_ne hqn, ih]

theorem ordLookup_const {c : Nat} :
    ∀ (l : List (Node × Nat)) (n : Node), (∀ p ∈ l, p.2 = c) →
      n ∈ l.map (fun p => p.1) → ordLookup l n = c := by
  intro l
  induction l with
  | nil => intro n _ h; simp at h
  | cons q l ih =>
    intro n hall hm
    by_cases hq : q.1 = n
    · rw [ordLookup_cons_eq hq]
      exact hall q (List.mem_cons_self q l)
    · have hm2 : n ∈ l.map (fun p => p.1) := by
        rcases List.mem_map.mp hm with ⟨p, hp, rfl⟩
        rcases List.mem_cons.mp hp with rfl | hp2
        · exact absurd rfl hq
        · exact List.mem_map.mpr ⟨p, hp2, rfl⟩
      rw [ordLookup_cons_ne hq]
      exact ih n (fun p hp => hall p (List.mem_cons_of_mem q hp)) hm2

theorem ordLookup_of_mem_nodup :
    ∀ (l : List (Node × Nat)) (n : Node) (o : Nat),
      (l.map (fun p => p.1)).Nodup → (n, o) ∈ l → ordLookup l n = o := by
  intro l
  induction l with
  | nil => intro n o _ h; cases h
  | cons q l ih =>
    intro n o hnd hm
    rw [List.map_cons, List.nodup_cons] at hnd
    by_cases hq : q.1 = n
    · rw [ordLookup_cons_eq hq]
      rcases List.mem_cons.mp hm with rfl | hm2
      · rfl
      · exfalso
        apply hnd.1
        rw [hq]
        exact List.mem_map.mpr ⟨(n, o), hm2, rfl⟩
    · have hm2 : (n, o) ∈ l := by
        rcases List.mem_cons.mp hm with hEq | hm2
        · exfalso; apply hq; rw [← hEq]
        · exact hm2
      rw [ordLookup_cons_ne hq]
      exact ih n o hnd.2 hm2

/-! ### Membership in the rewritten graph -/

theorem replace_keys_mem {g g2 : Graph} {node : Node}
    (hrep : replace_wire_cut_node node g = some g2)
    (hnd : node.wires.Nodup) (hfresh : FreshCut g node) (m : Node) :
    m ∈ g2.keys ↔ ((m ∈ g.keys ∧ m ≠ node)
      ∨ ∃ w2 ∈ node.wires, m = cutMeasNode node w2 ∨ m = cutPrepNode node w2) := by
  obtain ⟨hnodes, -, -⟩ := replace_spec hrep hnd hfresh
  have hkeys : g2.keys = (g.removeNode node).keys
      ++ (catMap (fun w => [(cutMeasNode node w, g.orderOf node),
          (cutPrepNode node w, g.orderOf node)]) node.wires).map (fun p => p.1) := by
    rw [Graph.keys_def, hnodes, List.map_append]
    rfl
  rw [hkeys, List.mem_append, removeNode_keys_mem]
  constructor
  · rintro (h1 | h2)
    · exact Or.inl h1
    · right
      rcases List.mem_map.mp h2 with ⟨p, hp, rfl⟩
      rcases mem_catMap.mp hp with ⟨w2, hw2, hmem⟩
      rcases List.mem_cons.mp hmem with rfl | hmem2
      · exact ⟨w2, hw2, Or.inl rfl⟩
      · have hEq := List.mem_singleton.mp hmem2
        subst hEq
        exact ⟨w2, hw2, Or.inr rfl⟩
  · rintro (⟨hm, hne⟩ | ⟨w2, hw2, hq⟩)
    · exact Or.inl ⟨hm, hne⟩
    · right
      apply List.mem_map.mpr
      rcases hq with rfl | rfl
      · exact ⟨(cutMeasNode node w2, g.orderOf node),
          mem_catMap.mpr ⟨w2, hw2, by simp⟩, rfl⟩
      · exact ⟨(cutPrepNode node w2, g.orderOf node),
          mem_catMap.mpr ⟨w2, hw2, by simp⟩, rfl⟩

theorem replace_edges_mem {g g2 : Graph} {node : Node}
    (hrep : replace_wire_cut_node node g = some g2)
    (hnd : node.wires.Nodup) (hfresh : FreshCut g node) (e : Edge) :
    e ∈ g2.edges ↔ ((e ∈ g.edges ∧ e.1 ≠ node ∧ e.2.1 ≠ node)
      ∨ ∃ w2 ∈ node.wires, e ∈ cutEdges (predecessorOnWire g node w2)
          (successorOnWire g node w2) node w2) := by
  obtain ⟨-, hedges, -⟩ := replace_spec hrep hnd hfresh
  rw [hedges, List.mem_append, removeNode_edges_mem, mem_catMap]

/-- C2: rewriting a cut-marker node present in a chain-invariant graph
produces, for each wire `w` it touches, a fresh sink (`MeasureNode`) and
source (`PrepareNode`) pair joined by a sink→source edge labeled `w`; the
sink's incoming wire-`w` edges are exactly those from the marker's original
wire-`w` predecessor, the source's outgoing wire-`w` edges exactly those to
the marker's original wire-`w` successor, and the marker itself is gone. -/
theorem replace_wire_cut_node_boundary_pair (g g2 : Graph) (node : Node)
    (w : Nat)
    (hchain : ChainInv g) (hkind : node.kind = NodeKind.wireCut)
    (hend : EndpointsMem g) (hloop : NoSelfLoop g)
    (hfresh : FreshCut g node) (hnd : node.wires.Nodup) (hw : w ∈ node.wires)
    (hrep : replace_wire_cut_node node g = some g2) :
    cutMeasNode node w ∉ g.keys ∧ cutPrepNode node w ∉ g.keys
      ∧ cutMeasNode node w ∈ g2.keys ∧ cutPrepNode node w ∈ g2.keys
      ∧ (cutMeasNode node w, cutPrepNode node w, w) ∈ g2.edges
      ∧ (∀ u : Node,
          (u, cutMeasNode node w, w) ∈ g2.edges ↔ (u, node, w) ∈ g.edges)
      ∧ (∀ v : Node,
          (cutPrepNode node w, v, w) ∈ g2.edges ↔ (node, v, w) ∈ g.edges)
      ∧ node ∉ g2.keys := by
  have hkm := replace_keys_mem hrep hnd hfresh
  have hem := replace_edges_mem hrep hnd hfresh
  have hsink : cutMeasNode node w ∉ g.keys := fun h => (hfresh w hw _ h).1 rfl
  have hsrc : cutPrepNode node w ∉ g.keys := fun h => (hfresh w hw _ h).2 rfl
  refine ⟨hsink, hsrc, ?_, ?_, ?_, ?_, ?_, ?_⟩
  · exact (hkm _).mpr (Or.inr ⟨w, hw, Or.inl rfl⟩)
  · exact (hkm _).mpr (Or.inr ⟨w, hw, Or.inr rfl⟩)
  · exact (hem _).mpr (Or.inr ⟨w, hw, List.mem_cons_self _ _⟩)
  · intro u
    constructor
    · intro h
      rcases (hem _).mp h with ⟨hold, -, -⟩ | ⟨w2, hw2, hmem⟩
      · exact absurd (hend _ hold).2 hsink
      · simp only [cutEdges] at hmem
        rcases List.mem_cons.mp hmem with heq | hmem2
        · exfalso
          have h2 : cutMeasNode node w = cutPrepNode node w2 :=
            congrArg (fun t : Edge => t.2.1) heq
          exact cutMeasNode_ne_cutPrepNode node node w w2 h2
        · rcases List.mem_append.mp hmem2 with hpredE | hsuccE
          · rcases hpp : predecessorOnWire g node w2 with _ | p
            · rw [hpp] at hpredE; cases hpredE
            · rw [hpp] at hpredE
              have heq := List.mem_singleton.mp hpredE
              have h1 : u = p := congrArg (fun t : Edge => t.1) heq
              have h3 : w = w2 := congrArg (fun t : Edge => t.2.2) heq
              subst h3
              rw [h1]
              exact predOn_some_mem hpp
          · rcases hss : successorOnWire g node w2 with _ | v2
            · rw [hss] at hsuccE; cases hsuccE
            · rw [hss] at hsuccE
              have heq := List.mem_singleton.mp hsuccE
              exfalso
              have hv := succOn_some_mem hss
              have hvk := (hend _ hv).2
              have h2 : cutMeasNode node w = v2 :=
                congrArg (fun t : Edge => t.2.1) heq
              rw [← h2] at hvk
              exact hsink hvk
    · intro h
      have hps := predOn_some_of_mem hchain.1 h
      apply (hem _).mpr
      right
      refine ⟨w, hw, ?_⟩
      simp only [cutEdges, hps]
      apply List.mem_cons_of_mem
      apply List.mem_append.mpr
      left
      exact List.mem_singleton.mpr rfl
  · intro v
    constructor
    · intro h
      rcases (hem _).mp h with ⟨hold, -, -⟩ | ⟨w2, hw2, hmem⟩
      · exact absurd (hend _ hold).1 hsrc
      · simp only [cutEdges] at hmem
        rcases List.mem_cons.mp hmem with heq | hmem2
        · exfalso
          have h2 : cutPrepNode node w = cutMeasNode node w2 :=
            congrArg (fun t : Edge => t.1) heq
          exact cutMeasNode_ne_cutPrepNode node node w2 w h2.symm
        · rcases List.mem_append.mp hmem2 with hpredE | hsuccE
          · rcases hpp : predecessorOnWire g node w2 with _ | p
            · rw [hpp] at hpredE; cases hpredE
            · rw [hpp] at hpredE
              have heq := List.mem_singleton.mp hpredE
              exfalso
              have hp := predOn_some_mem hpp
              have hpk := (hend _ hp).1
              have h2 : cutPrepNode node w = p :=
                congrArg (fun t : Edge => t.1) heq
              rw [← h2] at hpk
              exact hsrc hpk
          · rcases hss : successorOnWire g node w2 with _ | v2
            · rw [hss] at hsuccE; cases hsuccE
            · rw [hss] at hsuccE
              have heq := List.mem_singleton.mp hsuccE
              have h1 : v = v2 := congrArg (fun t : Edge => t.2.1) heq
              have h3 : w = w2 := congrArg (fun t : Edge => t.2.2) heq
              subst h3
              rw [h1]
              exact succOn_some_mem hss
    · intro h
      have hss := succOn_some_of_mem hchain.2 h
      apply (hem _).mpr
      right
      refine ⟨w, hw, ?_⟩
      simp only [cutEdges, hss]
      apply List.mem_cons_of_mem
      apply List.mem_append.mpr
      right
      exact List.mem_singleton.mpr rfl
  · intro hmemk
    rcases (hkm _).mp hmemk with ⟨-, hne⟩ | ⟨w2, hw2, hq⟩
    · exact hne rfl
    · rcases hq with hq | hq
      · exact node_ne_cutMeasNode node w2 hq
      · exact node_ne_cutPrepNode node w2 hq

/-- C10: rewriting a cut-marker node leaves every other node in the graph
with its order attribute unchanged, and every edge not incident to the
marker in the graph with its wire attribute unchanged. -/
theorem replace_wire_cut_node_frame (g g2 : Graph) (node : Node)
    (hfresh : FreshCut g node) (hnd : node.wires.Nodup)
    (hrep : replace_wire_cut_node node g = some g2) :
    (∀ n ∈ g.keys, n ≠ node → n ∈ g2.keys ∧ g2.orderOf n = g.orderOf n)
      ∧ ∀ e ∈ g.edges, e.1 ≠ node → e.2.1 ≠ node → e ∈ g2.edges := by
  obtain ⟨hnodes, hedges, hmem⟩ := replace_spec hrep hnd hfresh
  constructor
  · intro n hn hne
    refine ⟨(replace_keys_mem hrep hnd hfresh n).mpr (Or.inl ⟨hn, hne⟩), ?_⟩
    show ordLookup g2.nodes n = ordLookup g.nodes n
    rw [hnodes]
    rw [ordLookup_mem_append]
    · show ordLookup (g.nodes.filter (fun p => p.1 ≠ node)) n = ordLookup g.nodes n
      exact ordLookup_filter_ne hne g.nodes
    · exact removeNode_keys_mem.mpr ⟨hn, hne⟩
  · intro e he h1 h2
    exact (replace_edges_mem hrep hnd hfresh e).mpr (Or.inl ⟨he, h1, h2⟩)

/-! ### Counting lemmas for C3 -/

theorem filter_fst_ne_eq_self {l : List (Node × Nat)} {node : Node}
    (h : ∀ p ∈ l, p.1 ≠ node) : l.filter (fun p => p.1 ≠ node) = l := by
  apply List.filter_eq_self.mpr
  intro p hp
  simp [h p hp]

theorem length_filter_remove {node : Node} :
    ∀ l : List (Node × Nat), (l.map (fun p => p.1)).Nodup →
      node ∈ l.map (fun p => p.1) →
      (l.filter (fun p => p.1 ≠ node)).length + 1 = l.length := by
  intro l
  induction l with
  | nil => intro _ hm; simp at hm
  | cons q l ih =>
    intro hnd hm
    rw [List.map_cons, List.nodup_cons] at hnd
    rw [List.filter_cons]
    by_cases hq : q.1 = node
    · have hrest : ∀ p ∈ l, p.1 ≠ node := by
        intro p hp hEq
        apply hnd.1
        rw [hq]
        rw [← hEq]
        exact List.mem_map.mpr ⟨p, hp, rfl⟩
      rw [if_neg (by simp [hq]), filter_fst_ne_eq_self hrest]
      simp
    · have hm2 : node ∈ l.map (fun p => p.1) := by
        rw [List.map_cons, List.mem_cons] at hm
        rcases hm with hEq | hm2
        · exact absurd hEq.symm hq
        · exact hm2
      rw [if_pos (by simp [hq])]
      simp only [List.length_cons]
      rw [← ih hnd.2 hm2]

theorem catMap_pair_length (f f2 : Nat → Node × Nat) :
    ∀ ws : List Nat, (catMap (fun w => [f w, f2 w]) ws).length = 2 * ws.length := by
  intro ws
  induction ws with
  | nil => rfl
  | cons w ws ih =>
    simp only [catMap, List.length_append, List.length_cons, List.length_nil,
      List.length_cons, ih]
    omega

theorem catMap_countP_zero {α β : Type} (p : β → Bool) (f : α → List β) :
    ∀ l : List α, (∀ a ∈ l, (f a).countP p = 0) →
      (catMap f l).countP p = 0 := by
  intro l
  induction l with
  | nil => intro _; rfl
  | cons a l ih =>
    intro h
    rw [catMap, List.countP_append, h a (List.mem_cons_self a l),
      ih (fun b hb => h b (List.mem_cons_of_mem a hb))]

theorem catMap_countP_single {β : Type} {p : β → Bool} {f : Nat → List β}
    {w : Nat} :
    ∀ ws : List Nat, ws.Nodup → w ∈ ws → (f w).countP p = 1 →
      (∀ w2 ∈ ws, w2 ≠ w → (f w2).countP p = 0) →
      (catMap f ws).countP p = 1 := by
  intro ws
  induction ws with
  | nil => intro _ hm; cases hm
  | cons w2 ws ih =>
    intro hnd hm hone hzero
    rw [catMap, List.countP_append]
    rw [List.nodup_cons] at hnd
    by_cases hq : w2 = w
    · subst hq
      rw [hone]
      have : (catMap f ws).countP p = 0 := by
        apply catMap_countP_zero
        intro w3 hw3
        apply hzero w3 (List.mem_cons_of_mem _ hw3)
        intro hEq
        subst hEq
        exact hnd.1 hw3
      rw [this]
    · have hm2 : w ∈ ws := by
        rcases List.mem_cons.mp hm with hEq | hm2
        · exact absurd hEq.symm hq
        · exact hm2
      rw [hzero w2 (List.mem_cons_self w2 ws) hq]
      rw [ih hnd.2 hm2 hone
        (fun w3 hw3 => hzero w3 (List.mem_cons_of_mem _ hw3))]

theorem cutEdges_wire {p s : Option Node} {node : Node} {w2 : Nat} {e : Edge}
    (h : e ∈ cutEdges p s node w2) : e.2.2 = w2 := by
  simp only [cutEdges] at h
  rcases List.mem_cons.mp h with rfl | h2
  · rfl
  · rcases List.mem_append.mp h2 with h3 | h3
    · rcases p with _ | u
      · cases h3
      · have := List.mem_singleton.mp h3
        subst this
        rfl
    · rcases s with _ | v
      · cases h3
      · have := List.mem_singleton.mp h3
        subst this
        rfl

theorem any_pred_iff {g : Graph} {node : Node} {w : Nat} :
    (g.edges.any (fun e => e.2.1 = node ∧ e.2.2 = w) = true)
      ↔ (predecessorOnWire g node w).isSome = true := by
  constructor
  · intro h
    rcases List.any_eq_true.mp h with ⟨e, he, hp⟩
    simp only [decide_eq_true_eq] at hp
    obtain ⟨a, b, c⟩ := e
    simp only at hp
    rcases hp with ⟨rfl, rfl⟩
    cases hq : predecessorOnWire g b c with
    | none => exact absurd he (predOn_none_not_mem hq a)
    | some u => rfl
  · intro h
    rcases Option.isSome_iff_exists.mp h with ⟨u, hu⟩
    apply List.any_eq_true.mpr
    exact ⟨(u, node, w), predOn_some_mem hu, by simp⟩

theorem any_succ_iff {g : Graph} {node : Node} {w : Nat} :
    (g.edges.any (fun e => e.1 = node ∧ e.2.2 = w) = true)
      ↔ (successorOnWire g node w).isSome = true := by
  constructor
  · intro h
    rcases List.any_eq_true.mp h with ⟨e, he, hp⟩
    simp only [decide_eq_true_eq] at hp
    obtain ⟨a, b, c⟩ := e
    simp only at hp
    rcases hp with ⟨rfl, rfl⟩
    cases hq : successorOnWire g a c with
    | none => exact absurd he (succOn_none_not_mem hq b)
    | some v => rfl
  · intro h
    rcases Option.isSome_iff_exists.mp h with ⟨v, hv⟩
    apply List.any_eq_true.mpr
    exact ⟨(node, v, w), succOn_some_mem hv, by simp⟩

theorem removeNode_nodes (g : Graph) (n : Node) :
    (g.removeNode n).nodes = g.nodes.filter (fun p => p.1 ≠ n) := rfl

/-- C3: rewriting a cut-marker touching k wires removes 1 node and adds 2k
(total node count changes by 2k − 1), and per touched wire the graph gains
exactly one sink→source edge, one predecessor→sink edge iff the marker had a
wire-`w` predecessor, and one source→successor edge iff the marker had a
wire-`w` successor. -/
theorem replace_wire_cut_node_counts (g g2 : Graph) (node : Node)
    (hchain : ChainInv g) (hend : EndpointsMem g) (hnodup : g.keys.Nodup)
    (hfresh : FreshCut g node) (hnd : node.wires.Nodup)
    (hrep : replace_wire_cut_node node g = some g2) :
    g2.keys.length + 1 = g.keys.length + 2 * node.wires.length
      ∧ node ∉ g2.keys
      ∧ (∀ w ∈ node.wires,
          cutMeasNode node w ∈ g2.keys ∧ cutPrepNode node w ∈ g2.keys)
      ∧ ∀ w ∈ node.wires,
          g2.edges.countP
              (fun e => e = (cutMeasNode node w, cutPrepNode node w, w)) = 1
            ∧ g2.edges.countP (fun e => e.2.1 = cutMeasNode node w)
              = (if g.edges.any (fun e => e.2.1 = node ∧ e.2.2 = w) then 1 else 0)
            ∧ g2.edges.countP (fun e => e.1 = cutPrepNode node w)
              = (if g.edges.any (fun e => e.1 = node ∧ e.2.2 = w) then 1 else 0) := by
  obtain ⟨hnodes, hedges, hmemk⟩ := replace_spec hrep hnd hfresh
  have hkm := replace_keys_mem hrep hnd hfresh
  refine ⟨?_, ?_, ?_, ?_⟩
  · have hklen : ∀ h : Graph, h.keys.length = h.nodes.length :=
      fun h => List.length_map _ _
    rw [hklen g2, hklen g, hnodes, List.length_append,
      catMap_pair_length _ _ node.wires, removeNode_nodes]
    have hr := length_filter_remove g.nodes hnodup hmemk
    omega
  · intro hmem2
    rcases (hkm _).mp hmem2 with ⟨-, hne⟩ | ⟨w2, -, hq | hq⟩
    · exact hne rfl
    · exact node_ne_cutMeasNode node w2 hq
    · exact node_ne_cutPrepNode node w2 hq
  · intro w hw
    exact ⟨(hkm _).mpr (Or.inr ⟨w, hw, Or.inl rfl⟩),
      (hkm _).mpr (Or.inr ⟨w, hw, Or.inr rfl⟩)⟩
  · intro w hw
    have hsink : cutMeasNode node w ∉ g.keys := fun h => (hfresh w hw _ h).1 rfl
    have hsrc : cutPrepNode node w ∉ g.keys := fun h => (hfresh w hw _ h).2 rfl
    have hremE : ∀ e ∈ (g.removeNode node).edges, e ∈ g.edges :=
      fun e he => (removeNode_edges_mem.mp he).1
    have hne1 : cutMeasNode node w ≠ cutPrepNode node w :=
      cutMeasNode_ne_cutPrepNode node node w w
    refine ⟨?_, ?_, ?_⟩
    · rw [hedges, List.countP_append]
      have h0 : ((g.removeNode node).edges).countP
          (fun e => e = (cutMeasNode node w, cutPrepNode node w, w)) = 0 := by
        apply List.countP_eq_zero.mpr
        intro e he
        simp only [decide_eq_true_eq]
        intro hEq
        subst hEq
        exact hsrc ((hend _ (hremE _ he)).2)
      rw [h0, Nat.zero_add]
      apply catMap_countP_single node.wires hnd hw
      · rcases hpp : predecessorOnWire g node w with _ | p <;>
          rcases hss : successorOnWire g node w with _ | v <;>
          simp [cutEdges, hpp, hss, List.countP_cons, List.countP_append,
            List.countP_nil, Prod.mk.injEq, hne1, Ne.symm hne1]
      · intro w2 hw2 hne2
        apply List.countP_eq_zero.mpr
        intro e he
        simp only [decide_eq_true_eq]
        intro hEq
        apply hne2
        have h3 := cutEdges_wire he
        rw [hEq] at h3
        exact h3.symm
    · rw [hedges, List.countP_append]
      have h0 : ((g.removeNode node).edges).countP
          (fun e => e.2.1 = cutMeasNode node w) = 0 := by
        apply List.countP_eq_zero.mpr
        intro e he
        simp only [decide_eq_true_eq]
        intro hEq
        exact hsink (hEq ▸ (hend _ (hremE _ he)).2)
      rw [h0, Nat.zero_add]
      by_cases hP : (g.edges.any (fun e => e.2.1 = node ∧ e.2.2 = w)) = true
      · rw [if_pos hP]
        rcases Option.isSome_iff_exists.mp (any_pred_iff.mp hP) with ⟨p, hp⟩
        apply catMap_countP_single node.wires hnd hw
        · rcases hss : successorOnWire g node w with _ | v
          · simp [cutEdges, hp, hss, List.countP_cons, List.countP_append,
              List.countP_nil, Ne.symm hne1]
          · have hvne : v ≠ cutMeasNode node w :=
              fun hEq => hsink (hEq ▸ (hend _ (succOn_some_mem hss)).2)
            simp [cutEdges, hp, hss, List.countP_cons, List.countP_append,
              List.countP_nil, Ne.symm hne1, hvne]
        · intro w2 hw2 hne2
          apply List.countP_eq_zero.mpr
          intro e he
          simp only [decide_eq_true_eq]
          intro hEq
          simp only [cutEdges] at he
          rcases List.mem_cons.mp he with rfl | he2
          · exact cutMeasNode_ne_cutPrepNode node node w w2 hEq.symm
          · rcases List.mem_append.mp he2 with h3 | h3
            · rcases hpq : predecessorOnWire g node w2 with _ | q
              · rw [hpq] at h3; cases h3
              · rw [hpq] at h3
                have hEq2 := List.mem_singleton.mp h3
                subst hEq2
                exact hne2 (cutMeasNode_inj hEq)
            · rcases hsq : successorOnWire g node w2 with _ | v2
              · rw [hsq] at h3; cases h3
              · rw [hsq] at h3
                have hEq2 := List.mem_singleton.mp h3
                subst hEq2
                exact hsink (hEq ▸ (hend _ (succOn_some_mem hsq)).2)
      · rw [if_neg hP]
        apply catMap_countP_zero
        intro w2 hw2
        apply List.countP_eq_zero.mpr
        intro e he
        simp only [decide_eq_true_eq]
        intro hEq
        simp only [cutEdges] at he
        rcases List.mem_cons.mp he with rfl | he2
        · exact cutMeasNode_ne_cutPrepNode node node w w2 hEq.symm
        · rcases List.mem_append.mp he2 with h3 | h3
          · rcases hpq : predecessorOnWire g node w2 with _ | q
            · rw [hpq] at h3; cases h3
            · rw [hpq] at h3
              have hEq2 := List.mem_singleton.mp h3
              subst hEq2
              have hww : w2 = w := cutMeasNode_inj hEq
              subst hww
              exact hP (any_pred_iff.mpr (by rw [hpq]; rfl))
          · rcases hsq : successorOnWire g node w2 with _ | v2
            · rw [hsq] at h3; cases h3
            · rw [hsq] at h3
              have hEq2 := List.mem_singleton.mp h3
              subst hEq2
              exact hsink (hEq ▸ (hend _ (succOn_some_mem hsq)).2)
    · rw [hedges, List.countP_append]
      have h0 : ((g.removeNode node).edges).countP
          (fun e => e.1 = cutPrepNode node w) = 0 := by
        apply List.countP_eq_zero.mpr
        intro e he
        simp only [decide_eq_true_eq]
        intro hEq
        exact hsrc (hEq ▸ (hend _ (hremE _ he)).1)
      rw [h0, Nat.zero_add]
      by_cases hS : (g.edges.any (fun e => e.1 = node ∧ e.2.2 = w)) = true
      · rw [if_pos hS]
        rcases Option.isSome_iff_exists.mp (any_succ_iff.mp hS) with ⟨v, hv⟩
        apply catMap_countP_single node.wires hnd hw
        · rcases hpp : predecessorOnWire g node w with _ | p
          · simp [cutEdges, hpp, hv, List.countP_cons, List.countP_append,
              List.countP_nil, hne1]
          · have hpne : p ≠ cutPrepNode node w :=
              fun hEq => hsrc (hEq ▸ (hend _ (predOn_some_mem hpp)).1)
            simp [cutEdges, hpp, hv, List.countP_cons, List.countP_append,
              List.countP_nil, hne1, hpne]
        · intro w2 hw2 hne2
          apply List.countP_eq_zero.mpr
          intro e he
          simp only [decide_eq_true_eq]
          intro hEq
          simp only [cutEdges] at he
          rcases List.mem_cons.mp he with rfl | he2
          · exact cutMeasNode_ne_cutPrepNode node node w2 w hEq
          · rcases List.mem_append.mp he2 with h3 | h3
            · rcases hpq : predecessorOnWire g node w2 with _ | q
              · rw [hpq] at h3; cases h3
              · rw [hpq] at h3
                have hEq2 := List.mem_singleton.mp h3
                subst hEq2
                exact hsrc (hEq ▸ (hend _ (predOn_some_mem hpq)).1)
            · rcases hsq : successorOnWire g node w2 with _ | v2
              · rw [hsq] at h3; cases h3
              · rw [hsq] at h3
                have hEq2 := List.mem_singleton.mp h3
                subst hEq2
                exact hne2 (cutPrepNode_inj hEq)
      · rw [if_neg hS]
        apply catMap_countP_zero
        intro w2 hw2
        apply List.countP_eq_zero.mpr
        intro e he
        simp only [decide_eq_true_eq]
        intro hEq
        simp only [cutEdges] at he
        rcases List.mem_cons.mp he with rfl | he2
        · exact cutMeasNode_ne_cutPrepNode node node w2 w hEq
        · rcases List.mem_append.mp he2 with h3 | h3
          · rcases hpq : predecessorOnWire g node w2 with _ | q
            · rw [hpq] at h3; cases h3
            · rw [hpq] at h3
              have hEq2 := List.mem_singleton.mp h3
              subst hEq2
              exact hsrc (hEq ▸ (hend _ (predOn_some_mem hpq)).1)
          · rcases hsq : successorOnWire g node w2 with _ | v2
            · rw [hsq] at h3; cases h3
            · rw [hsq] at h3
              have hEq2 := List.mem_singleton.mp h3
              subst hEq2
              have hww : w2 = w := cutPrepNode_inj hEq
              subst hww
              exact hS (any_succ_iff.mpr (by rw [hsq]; rfl))

/-! ### Concrete witness data: `RX(0) ; WireCut(0) ; RY(0)` style graph -/

def nA : Node := ⟨NodeId.base 0, NodeKind.op, [0]⟩

def nM : Node := ⟨NodeId.base 1, NodeKind.wireCut, [0]⟩

def nC : Node := ⟨NodeId.base 2, NodeKind.op, [0]⟩

def gMark : Graph :=
  ⟨[(nA, 0), (nM, 1), (nC, 2)], [(nA, nM, 0), (nM, nC, 0)]⟩

def gMark2 : Graph := (replace_wire_cut_node nM gMark).getD Graph.empty

theorem replace_wire_cut_node_boundary_pair_witness :
    (cutMeasNode nM 0, cutPrepNode nM 0, 0) ∈ gMark2.edges ∧ nM ∉ gMark2.keys :=
  ⟨(replace_wire_cut_node_boundary_pair gMark gMark2 nM 0 (by decide) (by decide)
      (by decide) (by decide) (by decide) (by decide) (by decide)
      (by decide)).2.2.2.2.1,
   (replace_wire_cut_node_boundary_pair gMark gMark2 nM 0 (by decide) (by decide)
      (by decide) (by decide) (by decide) (by decide) (by decide)
      (by decide)).2.2.2.2.2.2.2⟩

theorem replace_wire_cut_node_counts_witness :
    gMark2.keys.length + 1 = gMark.keys.length + 2 * nM.wires.length :=
  (replace_wire_cut_node_counts gMark gMark2 nM (by decide) (by decide)
    (by decide) (by decide) (by decide) (by decide)).1

theorem replace_wire_cut_node_frame_witness :
    nA ∈ gMark2.keys ∧ gMark2.orderOf nA = gMark.orderOf nA :=
  (replace_wire_cut_node_frame gMark gMark2 nM (by decide) (by decide)
    (by decide)).1 nA (by decide) (by decide)

/-! ### Invariant of the graph-building loops -/

/-- Invariant threaded through `tape_to_graph`: the chain property, edge
well-formedness, the latest-node pointers point at nodes of the graph with
no outgoing edge yet on their wire, and all orders are bounded by the
running counter with orders non-decreasing along edges. -/
structure BuildInv (g : Graph) (wln : Nat → Option Node) (ord : Nat) : Prop where
  np : NoTwoPreds g
  ns : NoTwoSuccs g
  endp : EndpointsMem g
  noloop : NoSelfLoop g
  wlnMem : ∀ w n, wln w = some n → n ∈ g.keys
  wlnOut : ∀ w n, wln w = some n → ∀ e ∈ g.edges, e.1 = n → e.2.2 ≠ w
  bound : ∀ p ∈ g.nodes, p.2 ≤ ord
  mono : OrderMono g

/-- State invariant of the wire loop inside `_add_operator_node`, for the
fresh node `op` added with order `ord` on top of the node list `nodes0`. -/
structure FoldSt (op : Node) (ord : Nat) (nodes0 : List (Node × Nat))
    (ws : List Nat) (h : Graph) (l : Nat → Option Node) : Prop where
  np : NoTwoPreds h
  ns : NoTwoSuccs h
  lmem : ∀ w n, l w = some n → n ∈ h.keys
  lout : ∀ w n, l w = some n → ∀ e ∈ h.edges, e.1 = n → e.2.2 ≠ w
  endp : EndpointsMem h
  noloop : NoSelfLoop h
  nch : h.nodes = nodes0 ++ [(op, ord)]
  nosrc : ∀ e ∈ h.edges, e.1 ≠ op
  wsfree : ∀ w ∈ ws, (∀ e ∈ h.edges, e.2.1 = op → e.2.2 ≠ w) ∧ l w ≠ some op
  mono : OrderMono h

theorem ordLookup_le {l : List (Node × Nat)} {c : Nat}
    (h : ∀ p ∈ l, p.2 ≤ c) (n : Node) : ordLookup l n ≤ c := by
  unfold ordLookup
  cases hf : l.find? (fun p => p.1 = n) with
  | none => exact Nat.zero_le c
  | some p => exact h p (List.mem_of_find?_eq_some hf)

theorem foldSt_step (op : Node) (ord : Nat) (nodes0 : List (Node × Nat))
    (h0 : ∀ p ∈ nodes0, p.1 ≠ op) (hb : ∀ p ∈ nodes0, p.2 ≤ ord)
    (w : Nat) (ws : List Nat) (h : Graph) (l : Nat → Option Node)
    (hw : w ∉ ws) (hst : FoldSt op ord nodes0 (w :: ws) h l) :
    FoldSt op ord nodes0 ws (addOpStep op (h, l) w).1 (addOpStep op (h, l) w).2 := by
  have hhead := hst.wsfree w (List.mem_cons_self w ws)
  have hopk : op ∈ h.keys := by
    show op ∈ h.nodes.map (fun p => p.1)
    rw [hst.nch]
    simp
  cases hlw : l w with
  | none =>
    simp only [addOpStep, hlw]
    refine ⟨hst.np, hst.ns, ?_, ?_, hst.endp, hst.noloop, hst.nch, hst.nosrc,
      ?_, hst.mono⟩
    · intro w2 n hn
      by_cases hq : w2 = w
      · subst hq
        rw [if_pos rfl] at hn
        cases hn
        exact hopk
      · rw [if_neg hq] at hn
        exact hst.lmem w2 n hn
    · intro w2 n hn e he h1
      by_cases hq : w2 = w
      · subst hq
        rw [if_pos rfl] at hn
        cases hn
        exact absurd h1 (hst.nosrc e he)
      · rw [if_neg hq] at hn
        exact hst.lout w2 n hn e he h1
    · intro w2 hw2
      have hne : w2 ≠ w := fun hEq => hw (hEq ▸ hw2)
      have hprev := hst.wsfree w2 (List.mem_cons_of_mem w hw2)
      refine ⟨hprev.1, ?_⟩
      rw [if_neg hne]
      exact hprev.2
  | some parent =>
    simp only [addOpStep, hlw]
    have hpk : parent ∈ h.keys := hst.lmem w parent hlw
    have hpne : parent ≠ op := by
      intro hEq
      exact hhead.2 (hEq ▸ hlw)
    have hedges : (h.addEdge parent op w).edges = h.edges ++ [(parent, op, w)] := rfl
    have hnodes : (h.addEdge parent op w).nodes = h.nodes := rfl
    have hkeys : (h.addEdge parent op w).keys = h.keys := rfl
    refine ⟨?_, ?_, ?_, ?_, ?_, ?_, ?_, ?_, ?_, ?_⟩
    · -- NoTwoPreds
      intro e1 he1 e2 he2 ht hwq
      rw [hedges] at he1 he2
      rcases List.mem_append.mp he1 with he1 | he1 <;>
        rcases List.mem_append.mp he2 with he2 | he2
      · exact hst.np e1 he1 e2 he2 ht hwq
      · have := List.mem_singleton.mp he2
        subst this
        exact absurd hwq ((hhead.1) e1 he1 ht)
      · have := List.mem_singleton.mp he1
        subst this
        exact absurd hwq.symm ((hhead.1) e2 he2 ht.symm)
      · have h1 := List.mem_singleton.mp he1
        have h2 := List.mem_singleton.mp he2
        subst h1; subst h2
        rfl
    · -- NoTwoSuccs
      intro e1 he1 e2 he2 hs hwq
      rw [hedges] at he1 he2
      rcases List.mem_append.mp he1 with he1 | he1 <;>
        rcases List.mem_append.mp he2 with he2 | he2
      · exact hst.ns e1 he1 e2 he2 hs hwq
      · have := List.mem_singleton.mp he2
        subst this
        exact absurd hwq (hst.lout w parent hlw e1 he1 hs)
      · have := List.mem_singleton.mp he1
        subst this
        exact absurd hwq.symm (hst.lout w parent hlw e2 he2 hs.symm)
      · have h1 := List.mem_singleton.mp he1
        have h2 := List.mem_singleton.mp he2
        subst h1; subst h2
        rfl
    · -- lmem
      intro w2 n hn
      rw [hkeys]
      by_cases hq : w2 = w
      · subst hq
        rw [if_pos rfl] at hn
        cases hn
        exact hopk
      · rw [if_neg hq] at hn
        exact hst.lmem w2 n hn
    · -- lout
      intro w2 n hn e he h1
      rw [hedges] at he
      by_cases hq : w2 = w
      · subst hq
        rw [if_pos rfl] at hn
        cases hn
        rcases List.mem_append.mp he with he | he
        · exact absurd h1 (hst.nosrc e he)
        · have := List.mem_singleton.mp he
          subst this
          exact absurd h1 hpne
      · rw [if_neg hq] at hn
        rcases List.mem_append.mp he with he | he
        · exact hst.lout w2 n hn e he h1
        · have := List.mem_singleton.mp he
          subst this
          intro hEq
          exact hq hEq.symm
    · -- endpoints
      intro e he
      rw [hedges] at he
      rw [hkeys]
      rcases List.mem_append.mp he with he | he
      · exact hst.endp e he
      · have := List.mem_singleton.mp he
        subst this
        exact ⟨hpk, hopk⟩
    · -- no self loop
      intro e he
      rw [hedges] at he
      rcases List.mem_append.mp he with he | he
      · exact hst.noloop e he
      · have := List.mem_singleton.mp he
        subst this
        exact hpne
    · rw [hnodes]
      exact hst.nch
    · -- no edge out of op
      intro e he
      rw [hedges] at he
      rcases List.mem_append.mp he with he | he
      · exact hst.nosrc e he
      · have := List.mem_singleton.mp he
        subst this
        exact hpne
    · -- remaining wires untouched
      intro w2 hw2
      have hne : w2 ≠ w := fun hEq => hw (hEq ▸ hw2)
      have hprev := hst.wsfree w2 (List.mem_cons_of_mem w hw2)
      constructor
      · intro e he h1
        rw [hedges] at he
        rcases List.mem_append.mp he with he | he
        · exact hprev.1 e he h1
        · have := List.mem_singleton.mp he
          subst this
          intro hEq
          exact hne hEq.symm
      · rw [if_neg hne]
        exact hprev.2
    · -- order monotone
      intro e he
      rw [hedges] at he
      show ordLookup (h.addEdge parent op w).nodes e.1
        ≤ ordLookup (h.addEdge parent op w).nodes e.2.1
      rw [hnodes]
      rcases List.mem_append.mp he with he | he
      · exact hst.mono e he
      · have := List.mem_singleton.mp he
        subst this
        show ordLookup h.nodes parent ≤ ordLookup h.nodes op
        have hople : ordLookup h.nodes op = ord := by
          rw [hst.nch, ordLookup_append_not_mem h0, ordLookup_cons_eq rfl]
        rw [hople, hst.nch]
        apply ordLookup_le
        intro p hp
        rcases List.mem_append.mp hp with hp | hp
        · exact hb p hp
        · have := List.mem_singleton.mp hp
          subst this
          exact Nat.le_refl ord

theorem foldSt_run (op : Node) (ord : Nat) (nodes0 : List (Node × Nat))
    (h0 : ∀ p ∈ nodes0, p.1 ≠ op) (hb : ∀ p ∈ nodes0, p.2 ≤ ord) :
    ∀ (ws : List Nat) (h : Graph) (l : Nat → Option Node), ws.Nodup →
      FoldSt op ord nodes0 ws h l →
      FoldSt op ord nodes0 []
        (ws.foldl (addOpStep op) (h, l)).1 (ws.foldl (addOpStep op) (h, l)).2 := by
  intro ws
  induction ws with
  | nil => intro h l _ hst; exact hst
  | cons w ws ih =>
    intro h l hnd hst
    rw [List.foldl_cons]
    have hnd2 := List.nodup_cons.mp hnd
    have hstep := foldSt_step op ord nodes0 h0 hb w ws h l hnd2.1 hst
    exact ih _ _ hnd2.2 hstep

theorem buildInv_relax {g : Graph} {wln : Nat → Option Node} {ord ord2 : Nat}
    (h : BuildInv g wln ord) (hle : ord ≤ ord2) : BuildInv g wln ord2 :=
  ⟨h.np, h.ns, h.endp, h.noloop, h.wlnMem, h.wlnOut,
    fun p hp => Nat.le_trans (h.bound p hp) hle, h.mono⟩

theorem add_operator_node_inv (g : Graph) (wln : Nat → Option Node) (ord : Nat)
    (op : Node) (hInv : BuildInv g wln ord)
    (hfresh : ∀ m ∈ g.keys, m ≠ op) (hwnd : op.wires.Nodup) :
    BuildInv (add_operator_node g op ord wln).1
        (add_operator_node g op ord wln).2 ord
      ∧ (add_operator_node g op ord wln).1.nodes = g.nodes ++ [(op, ord)] := by
  have hopk : op ∉ g.keys := fun hm => hfresh op hm rfl
  have h0 : ∀ p ∈ g.nodes, p.1 ≠ op := by
    intro p hp
    exact hfresh p.1 (List.mem_map.mpr ⟨p, hp, rfl⟩)
  have hinit : FoldSt op ord g.nodes op.wires (g.addNode op ord) wln := by
    have hnodes1 : (g.addNode op ord).nodes = g.nodes ++ [(op, ord)] :=
      Graph.addNode_nodes_of_not_mem ord hopk
    have hkeys1 : (g.addNode op ord).keys = g.keys ++ [op] :=
      Graph.keys_addNode_not_mem ord hopk
    have hedges1 : (g.addNode op ord).edges = g.edges := Graph.addNode_edges g op ord
    refine ⟨?_, ?_, ?_, ?_, ?_, ?_, hnodes1, ?_, ?_, ?_⟩
    · intro e1 he1 e2 he2
      rw [hedges1] at he1 he2
      exact hInv.np e1 he1 e2 he2
    · intro e1 he1 e2 he2
      rw [hedges1] at he1 he2
      exact hInv.ns e1 he1 e2 he2
    · intro w n hn
      rw [hkeys1]
      exact List.mem_append_left _ (hInv.wlnMem w n hn)
    · intro w n hn e he
      rw [hedges1] at he
      exact hInv.wlnOut w n hn e he
    · intro e he
      rw [hedges1] at he
      rw [hkeys1]
      exact ⟨List.mem_append_left _ (hInv.endp e he).1,
        List.mem_append_left _ (hInv.endp e he).2⟩
    · intro e he
      rw [hedges1] at he
      exact hInv.noloop e he
    · intro e he
      rw [hedges1] at he
      exact hfresh e.1 (hInv.endp e he).1
    · intro w hw
      constructor
      · intro e he h1
        rw [hedges1] at he
        exact absurd (h1 ▸ (hInv.endp e he).2) hopk
      · intro hEq
        exact hfresh op (hInv.wlnMem w op hEq) rfl
    · intro e he
      rw [hedges1] at he
      show ordLookup (g.addNode op ord).nodes e.1
        ≤ ordLookup (g.addNode op ord).nodes e.2.1
      rw [hnodes1]
      rw [ordLookup_mem_append (hInv.endp e he).1,
        ordLookup_mem_append (hInv.endp e he).2]
      exact hInv.mono e he
  have hrun := foldSt_run op ord g.nodes h0 hInv.bound op.wires _ _ hwnd hinit
  constructor
  · refine ⟨hrun.np, hrun.ns, hrun.endp, hrun.noloop, hrun.lmem, hrun.lout,
      ?_, hrun.mono⟩
    intro p hp
    rw [show (add_operator_node g op ord wln).1.nodes
        = g.nodes ++ [(op, ord)] from hrun.nch] at hp
    rcases List.mem_append.mp hp with hp | hp
    · exact hInv.bound p hp
    · have := List.mem_singleton.mp hp
      subst this
      exact Nat.le_refl ord
  · exact hrun.nch

/-! ### Node/order characterization of the builder loops -/

def opsPairs : Nat → List Node → List (Node × Nat)
  | _, [] => []
  | ord, op :: ops => (op, ord) :: opsPairs (ord + 1) ops

def measPairs : Nat → List Measurement → List (Node × Nat)
  | _, [] => []
  | ord, m :: ms =>
    match m.tensor with
    | some ts => ts.map (fun t => (t, ord)) ++ measPairs ord ms
    | none => (m.node, ord) :: measPairs (ord + 1) ms

theorem opsPairs_map_fst : ∀ (ord : Nat) (ops : List Node),
    (opsPairs ord ops).map (fun p => p.1) = ops := by
  intro ord ops
  induction ops generalizing ord with
  | nil => rfl
  | cons op ops ih => simp [opsPairs, ih]

theorem measPairs_map_fst : ∀ (ord : Nat) (ms : List Measurement),
    (measPairs ord ms).map (fun p => p.1) = catMap measNodes ms := by
  intro ord ms
  induction ms generalizing ord with
  | nil => rfl
  | cons m ms ih =>
    cases htensor : m.tensor with
    | some ts =>
      simp only [measPairs, catMap, measNodes, htensor, ih, List.map_append,
        List.map_map]
      congr 1
      exact List.map_id ts
    | none => simp [measPairs, catMap, measNodes, htensor, ih]

theorem buildOps_inv :
    ∀ (ops : List Node) (g : Graph) (wln : Nat → Option Node) (ord : Nat),
      BuildInv g wln ord →
      (∀ op ∈ ops, op.wires.Nodup) →
      ((g.keys ++ ops).map (fun n => n.nid)).Nodup →
      BuildInv (buildOps g wln ord ops).1 (buildOps g wln ord ops).2.1
          (buildOps g wln ord ops).2.2
        ∧ (buildOps g wln ord ops).1.nodes = g.nodes ++ opsPairs ord ops
        ∧ (buildOps g wln ord ops).2.2 = ord + ops.length := by
  intro ops
  induction ops with
  | nil =>
    intro g wln ord hInv _ _
    exact ⟨hInv, by simp [buildOps, opsPairs], by simp [buildOps]⟩
  | cons op ops ih =>
    intro g wln ord hInv hwnd hnodup
    have hfresh : ∀ m ∈ g.keys, m ≠ op := by
      intro m hm hEq
      rw [List.map_append] at hnodup
      have hdisj := (List.nodup_append.mp hnodup).2.2
      exact hdisj (List.mem_map.mpr ⟨m, hm, rfl⟩)
        (by rw [hEq]; exact List.mem_map.mpr ⟨op, List.mem_cons_self op ops, rfl⟩)
    have hadd := add_operator_node_inv g wln ord op hInv hfresh
      (hwnd op (List.mem_cons_self op ops))
    have hkeys2 : (add_operator_node g op ord wln).1.keys = g.keys ++ [op] := by
      show (add_operator_node g op ord wln).1.nodes.map (fun p => p.1) = _
      rw [hadd.2]
      simp [Graph.keys]
    have hnodup2 :
        (((add_operator_node g op ord wln).1.keys ++ ops).map (fun n => n.nid)).Nodup := by
      rw [hkeys2, List.append_assoc]
      simpa using hnodup
    have hrec := ih (add_operator_node g op ord wln).1
      (add_operator_node g op ord wln).2 (ord + 1)
      (buildInv_relax hadd.1 (Nat.le_succ ord))
      (fun o ho => hwnd o (List.mem_cons_of_mem _ ho)) hnodup2
    refine ⟨?_, ?_, ?_⟩
    · simpa only [buildOps] using hrec.1
    · show (buildOps (add_operator_node g op ord wln).1
          (add_operator_node g op ord wln).2 (ord + 1) ops).1.nodes = _
      rw [hrec.2.1, hadd.2, opsPairs, List.append_assoc]
      rfl
    · show (buildOps (add_operator_node g op ord wln).1
          (add_operator_node g op ord wln).2 (ord + 1) ops).2.2 = _
      rw [hrec.2.2, List.length_cons]
      omega

theorem addTerms_inv :
    ∀ (ts : List Node) (g : Graph) (wln : Nat → Option Node) (ord : Nat),
      BuildInv g wln ord →
      (∀ t ∈ ts, t.wires.Nodup) →
      ((g.keys ++ ts).map (fun n => n.nid)).Nodup →
      BuildInv (addTerms g wln ord ts).1 (addTerms g wln ord ts).2 ord
        ∧ (addTerms g wln ord ts).1.nodes
            = g.nodes ++ ts.map (fun t => (t, ord)) := by
  intro ts
  induction ts with
  | nil =>
    intro g wln ord hInv _ _
    exact ⟨hInv, by simp [addTerms]⟩
  | cons t ts ih =>
    intro g wln ord hInv hwnd hnodup
    have hfresh : ∀ m ∈ g.keys, m ≠ t := by
      intro m hm hEq
      rw [List.map_append] at hnodup
      have hdisj := (List.nodup_append.mp hnodup).2.2
      exact hdisj (List.mem_map.mpr ⟨m, hm, rfl⟩)
        (by rw [hEq]; exact List.mem_map.mpr ⟨t, List.mem_cons_self t ts, rfl⟩)
    have hadd := add_operator_node_inv g wln ord t hInv hfresh
      (hwnd t (List.mem_cons_self t ts))
    have hkeys2 : (add_operator_node g t ord wln).1.keys = g.keys ++ [t] := by
      show (add_operator_node g t ord wln).1.nodes.map (fun p => p.1) = _
      rw [hadd.2]
      simp [Graph.keys]
    have hnodup2 :
        (((add_operator_node g t ord wln).1.keys ++ ts).map (fun n => n.nid)).Nodup := by
      rw [hkeys2, List.append_assoc]
      simpa using hnodup
    have hrec := ih (add_operator_node g t ord wln).1
      (add_operator_node g t ord wln).2 ord hadd.1
      (fun o ho => hwnd o (List.mem_cons_of_mem _ ho)) hnodup2
    refine ⟨?_, ?_⟩
    · simpa only [addTerms] using hrec.1
    · show (addTerms (add_operator_node g t ord wln).1
          (add_operator_node g t ord wln).2 ord ts).1.nodes = _
      rw [hrec.2, hadd.2, List.map_cons, List.append_assoc]
      rfl

theorem buildMeas_inv :
    ∀ (ms : List Measurement) (g : Graph) (wln : Nat → Option Node) (ord : Nat),
      BuildInv g wln ord →
      (∀ m ∈ ms, ∀ n ∈ measNodes m, n.wires.Nodup) →
      ((g.keys ++ catMap measNodes ms).map (fun n => n.nid)).Nodup →
      BuildInv (buildMeas g wln ord ms).1 (buildMeas g wln ord ms).2.1
          (buildMeas g wln ord ms).2.2
        ∧ (buildMeas g wln ord ms).1.nodes = g.nodes ++ measPairs ord ms := by
  intro ms
  induction ms with
  | nil =>
    intro g wln ord hInv _ _
    exact ⟨hInv, by simp [buildMeas, measPairs]⟩
  | cons m ms ih =>
    intro g wln ord hInv hwnd hnodup
    cases htensor : m.tensor with
    | some ts =>
      have hmn : measNodes m = ts := by simp [measNodes, htensor]
      have hcm : catMap measNodes (m :: ms) = ts ++ catMap measNodes ms := by
        simp [catMap, hmn]
      rw [hcm] at hnodup
      have hnodupA : ((g.keys ++ ts).map (fun n => n.nid)).Nodup := by
        have := hnodup
        rw [← List.append_assoc] at this
        rw [List.map_append] at this
        exact List.Nodup.of_append_left this
      have hterms := addTerms_inv ts g wln ord hInv
        (fun t ht => hwnd m (List.mem_cons_self m ms) t (hmn ▸ ht)) hnodupA
      have hkeys2 : (addTerms g wln ord ts).1.keys = g.keys ++ ts := by
        show (addTerms g wln ord ts).1.nodes.map (fun p => p.1) = _
        rw [hterms.2]
        simp [Graph.keys, List.map_map]
        congr 1
        exact List.map_id ts
      have hnodup2 : (((addTerms g wln ord ts).1.keys ++ catMap measNodes ms).map
          (fun n => n.nid)).Nodup := by
        rw [hkeys2, List.append_assoc]
        exact hnodup
      have hrec := ih (addTerms g wln ord ts).1 (addTerms g wln ord ts).2 ord
        hterms.1 (fun m2 hm2 => hwnd m2 (List.mem_cons_of_mem m hm2)) hnodup2
      refine ⟨?_, ?_⟩
      · simpa only [buildMeas, htensor] using hrec.1
      · have : (buildMeas g wln ord (m :: ms)).1
            = (buildMeas (addTerms g wln ord ts).1 (addTerms g wln ord ts).2 ord ms).1 := by
          simp only [buildMeas, htensor]
        rw [this, hrec.2, hterms.2, List.append_assoc]
        have hmp : measPairs ord (m :: ms)
            = ts.map (fun t => (t, ord)) ++ measPairs ord ms := by
          simp only [measPairs, htensor]
        rw [hmp]
    | none =>
      have hmn : measNodes m = [m.node] := by simp [measNodes, htensor]
      have hcm : catMap measNodes (m :: ms) = m.node :: catMap measNodes ms := by
        simp [catMap, hmn]
      rw [hcm] at hnodup
      have hfresh : ∀ n ∈ g.keys, n ≠ m.node := by
        intro n hn hEq
        rw [List.map_append] at hnodup
        have hdisj := (List.nodup_append.mp hnodup).2.2
        exact hdisj (List.mem_map.mpr ⟨n, hn, rfl⟩)
          (by rw [hEq]
              exact List.mem_map.mpr ⟨m.node, List.mem_cons_self _ _, rfl⟩)
      have hadd := add_operator_node_inv g wln ord m.node hInv hfresh
        (hwnd m (List.mem_cons_self m ms) m.node (hmn ▸ List.mem_singleton.mpr rfl))
      have hkeys2 : (add_operator_node g m.node ord wln).1.keys
          = g.keys ++ [m.node] := by
        show (add_operator_node g m.node ord wln).1.nodes.map (fun p => p.1) = _
        rw [hadd.2]
        simp [Graph.keys]
      have hnodup2 : (((add_operator_node g m.node ord wln).1.keys
          ++ catMap measNodes ms).map (fun n => n.nid)).Nodup := by
        rw [hkeys2, List.append_assoc]
        simpa using hnodup
      have hrec := ih (add_operator_node g m.node ord wln).1
        (add_operator_node g m.node ord wln).2 (ord + 1)
        (buildInv_relax hadd.1 (Nat.le_succ ord))
        (fun m2 hm2 => hwnd m2 (List.mem_cons_of_mem m hm2)) hnodup2
      refine ⟨?_, ?_⟩
      · simpa only [buildMeas, htensor] using hrec.1
      · have : (buildMeas g wln ord (m :: ms)).1
            = (buildMeas (add_operator_node g m.node ord wln).1
                (add_operator_node g m.node ord wln).2 (ord + 1) ms).1 := by
          simp only [buildMeas, htensor]
        rw [this, hrec.2, hadd.2, List.append_assoc]
        have hmp : measPairs ord (m :: ms)
            = (m.node, ord) :: measPairs (ord + 1) ms := by
          simp only [measPairs, htensor]
        rw [hmp]
        rfl

theorem empty_buildInv : BuildInv Graph.empty (fun _ => none) 0 := by
  refine ⟨?_, ?_, ?_, ?_, ?_, ?_, ?_, ?_⟩
  · intro e1 he1; cases he1
  · intro e1 he1; cases he1
  · intro e he; cases he
  · intro e he; cases he
  · intro w n hn; exact Option.noConfusion hn
  · intro w n hn; exact Option.noConfusion hn
  · intro p hp; cases hp
  · intro e he; cases he

theorem tape_to_graph_char (tape : Tape) (g : Graph) (hwf : tape.Wf)
    (hg : tape_to_graph tape = some g) :
    (∃ wln ord, BuildInv g wln ord)
      ∧ g.nodes = opsPairs 0 tape.operations
          ++ measPairs tape.operations.length tape.measurements := by
  obtain ⟨hwf1, hwf2, hwf3, hwf4⟩ := hwf
  have hne : tape.operations.isEmpty = false := by
    cases hcase : tape.operations with
    | nil => rw [tape_to_graph, hcase] at hg; simp at hg
    | cons a l => simp [hcase]
  rw [tape_to_graph, hne] at hg
  simp only [Bool.false_eq_true, if_false, Option.some.injEq] at hg
  have hopswnd : ∀ op ∈ tape.operations, op.wires.Nodup := by
    intro op hop
    exact hwf2 op (List.mem_append_left _ hop)
  have hopsnodup : ((Graph.empty.keys ++ tape.operations).map
      (fun n => n.nid)).Nodup := by
    show ((([] : List Node) ++ tape.operations).map (fun n => n.nid)).Nodup
    rw [List.nil_append]
    have := hwf1
    unfold addedNodes at this
    rw [List.map_append] at this
    exact List.Nodup.of_append_left this
  have hops := buildOps_inv tape.operations Graph.empty (fun _ => none) 0
    empty_buildInv hopswnd hopsnodup
  have hkeysop : (buildOps Graph.empty (fun _ => none) 0 tape.operations).1.keys
      = tape.operations := by
    show (buildOps Graph.empty (fun _ => none) 0 tape.operations).1.nodes.map
      (fun p => p.1) = _
    rw [hops.2.1]
    show (([] : List (Node × Nat)) ++ opsPairs 0 tape.operations).map
      (fun p => p.1) = _
    rw [List.nil_append, opsPairs_map_fst]
  have hmwnd : ∀ m ∈ tape.measurements, ∀ n ∈ measNodes m, n.wires.Nodup := by
    intro m hm n hn
    apply hwf2
    apply List.mem_append_right
    exact mem_catMap.mpr ⟨m, hm, hn⟩
  have hmnodup : (((buildOps Graph.empty (fun _ => none) 0 tape.operations).1.keys
      ++ catMap measNodes tape.measurements).map (fun n => n.nid)).Nodup := by
    rw [hkeysop]
    exact hwf1
  have hmeas := buildMeas_inv tape.measurements
    (buildOps Graph.empty (fun _ => none) 0 tape.operations).1
    (buildOps Graph.empty (fun _ => none) 0 tape.operations).2.1
    (buildOps Graph.empty (fun _ => none) 0 tape.operations).2.2
    hops.1 hmwnd hmnodup
  subst hg
  constructor
  · exact ⟨_, _, hmeas.1⟩
  · rw [hmeas.2, hops.2.1, hops.2.2]
    show (([] : List (Node × Nat)) ++ opsPairs 0 tape.operations)
        ++ measPairs (0 + tape.operations.length) tape.measurements = _
    rw [List.nil_append, Nat.zero_add]

/-- C1: on a well-formed tape, every graph `tape_to_graph` builds satisfies
the per-wire chain invariant: no node has two distinct wire-`w`
predecessors, and no node has two distinct wire-`w` successors. -/
theorem tape_to_graph_chain_inv (tape : Tape) (g : Graph) (hwf : tape.Wf)
    (hg : tape_to_graph tape = some g) : ChainInv g := by
  obtain ⟨⟨wln, ord, hInv⟩, -⟩ := tape_to_graph_char tape g hwf hg
  exact ⟨hInv.np, hInv.ns⟩

theorem opsPairs_mem_get :
    ∀ (ops : List Node) (k i : Nat) (hi : i < ops.length),
      (ops.get ⟨i, hi⟩, k + i) ∈ opsPairs k ops := by
  intro ops
  induction ops with
  | nil => intro k i hi; cases hi
  | cons op ops ih =>
    intro k i hi
    cases i with
    | zero => simp [opsPairs]
    | succ i =>
      have hi2 : i < ops.length := Nat.lt_of_succ_lt_succ hi
      have := ih (k + 1) i hi2
      have hEq : k + (i + 1) = (k + 1) + i := by omega
      rw [hEq]
      exact List.mem_cons_of_mem _ this

theorem measPairs_head_mem (ord : Nat) (m : Measurement) (ms : List Measurement) :
    ∀ n ∈ measNodes m, (n, ord) ∈ measPairs ord (m :: ms) := by
  intro n hn
  cases htensor : m.tensor with
  | some ts =>
    simp only [measNodes, htensor] at hn
    simp only [measPairs, htensor]
    exact List.mem_append_left _ (List.mem_map.mpr ⟨n, hn, rfl⟩)
  | none =>
    simp only [measNodes, htensor] at hn
    have := List.mem_singleton.mp hn
    subst this
    simp only [measPairs, htensor]
    exact List.mem_cons_self _ _

theorem measPairs_block_mem :
    ∀ (ms : List Measurement) (ord : Nat) (m : Measurement), m ∈ ms →
      ∃ o : Nat, ∀ n ∈ measNodes m, (n, o) ∈ measPairs ord ms := by
  intro ms
  induction ms with
  | nil => intro ord m hm; cases hm
  | cons m2 ms ih =>
    intro ord m hm
    rcases List.mem_cons.mp hm with rfl | hm2
    · exact ⟨ord, measPairs_head_mem ord m ms⟩
    · cases htensor : m2.tensor with
      | some ts =>
        rcases ih ord m hm2 with ⟨o, ho⟩
        refine ⟨o, fun n hn => ?_⟩
        simp only [measPairs, htensor]
        exact List.mem_append_right _ (ho n hn)
      | none =>
        rcases ih (ord + 1) m hm2 with ⟨o, ho⟩
        refine ⟨o, fun n hn => ?_⟩
        simp only [measPairs, htensor]
        exact List.mem_cons_of_mem _ (ho n hn)

theorem measPairs_adj_mem :
    ∀ (pre : List Measurement) (ord : Nat) (m m2 : Measurement)
      (post : List Measurement) (ts : List Node),
      m.tensor = some ts →
      ∃ o : Nat,
        (∀ t ∈ ts, (t, o) ∈ measPairs ord (pre ++ m :: m2 :: post))
          ∧ ∀ n ∈ measNodes m2, (n, o) ∈ measPairs ord (pre ++ m :: m2 :: post) := by
  intro pre
  induction pre with
  | nil =>
    intro ord m m2 post ts htensor
    refine ⟨ord, ?_, ?_⟩
    · intro t ht
      show (t, ord) ∈ measPairs ord (m :: m2 :: post)
      simp only [measPairs, htensor]
      exact List.mem_append_left _ (List.mem_map.mpr ⟨t, ht, rfl⟩)
    · intro n hn
      show (n, ord) ∈ measPairs ord (m :: m2 :: post)
      simp only [measPairs, htensor]
      exact List.mem_append_right _ (measPairs_head_mem ord m2 post n hn)
  | cons p pre ih =>
    intro ord m m2 post ts htensor
    cases hpt : p.tensor with
    | some ts2 =>
      rcases ih ord m m2 post ts htensor with ⟨o, h1, h2⟩
      refine ⟨o, fun t ht => ?_, fun n hn => ?_⟩
      · simp only [List.cons_append, measPairs, hpt]
        exact List.mem_append_right _ (h1 t ht)
      · simp only [List.cons_append, measPairs, hpt]
        exact List.mem_append_right _ (h2 n hn)
    | none =>
      rcases ih (ord + 1) m m2 post ts htensor with ⟨o, h1, h2⟩
      refine ⟨o, fun t ht => ?_, fun n hn => ?_⟩
      · simp only [List.cons_append, measPairs, hpt]
        exact List.mem_cons_of_mem _ (h1 t ht)
      · simp only [List.cons_append, measPairs, hpt]
        exact List.mem_cons_of_mem _ (h2 n hn)

theorem tape_nodes_fst (tape : Tape) (g : Graph) (hwf : tape.Wf)
    (hg : tape_to_graph tape = some g) :
    g.nodes.map (fun p => p.1) = addedNodes tape := by
  obtain ⟨-, hnodes⟩ := tape_to_graph_char tape g hwf hg
  rw [hnodes, List.map_append, opsPairs_map_fst, measPairs_map_fst]
  rfl

theorem catMap_sublist {α β : Type} (f : α → List β) :
    ∀ (l : List α) (a : α), a ∈ l → (f a).Sublist (catMap f l) := by
  intro l
  induction l with
  | nil => intro a ha; cases ha
  | cons b l ih =>
    intro a ha
    rcases List.mem_cons.mp ha with rfl | ha2
    · exact List.sublist_append_left (f a) (catMap f l)
    · exact List.Sublist.trans (ih a ha2) (List.sublist_append_right (f b) (catMap f l))

/-- C5: `tape_to_graph` tags each operation node with its zero-based
position, every node of the first measurement carries an order strictly
greater than every operation's, and all sibling terms of one decomposed
(`Tensor`) measurement are distinct graph nodes sharing one order. -/
theorem tape_to_graph_order_assignment (tape : Tape) (g : Graph)
    (hwf : tape.Wf) (hg : tape_to_graph tape = some g) :
    (∀ (i : Nat) (hi : i < tape.operations.length),
        g.orderOf (tape.operations.get ⟨i, hi⟩) = i)
      ∧ (∀ m ms2, tape.measurements = m :: ms2 →
          ∀ n ∈ measNodes m,
            g.orderOf n = tape.operations.length
              ∧ ∀ op ∈ tape.operations, g.orderOf op < g.orderOf n)
      ∧ (∀ m ∈ tape.measurements, ∀ ts, m.tensor = some ts →
          (∀ t ∈ ts, t ∈ g.keys) ∧ ts.Nodup
            ∧ ∀ t1 ∈ ts, ∀ t2 ∈ ts, g.orderOf t1 = g.orderOf t2) := by
  obtain ⟨-, hnodes⟩ := tape_to_graph_char tape g hwf hg
  have hfst := tape_nodes_fst tape g hwf hg
  have hndk : (g.nodes.map (fun p => p.1)).Nodup := by
    rw [hfst]
    exact List.Nodup.of_map _ hwf.1
  have hpart1 : ∀ (i : Nat) (hi : i < tape.operations.length),
      g.orderOf (tape.operations.get ⟨i, hi⟩) = i := by
    intro i hi
    have hmem : (tape.operations.get ⟨i, hi⟩, i) ∈ g.nodes := by
      rw [hnodes]
      apply List.mem_append_left
      have := opsPairs_mem_get tape.operations 0 i hi
      rwa [Nat.zero_add] at this
    exact ordLookup_of_mem_nodup g.nodes _ i hndk hmem
  refine ⟨hpart1, ?_, ?_⟩
  · intro m ms2 hms n hn
    have hmm : (n, tape.operations.length) ∈ g.nodes := by
      rw [hnodes, hms]
      exact List.mem_append_right _ (measPairs_head_mem _ m ms2 n hn)
    have hord : g.orderOf n = tape.operations.length :=
      ordLookup_of_mem_nodup g.nodes _ _ hndk hmm
    refine ⟨hord, ?_⟩
    intro op hop
    rcases List.mem_iff_get.mp hop with ⟨⟨i, hi⟩, rfl⟩
    rw [hord, hpart1 i hi]
    exact hi
  · intro m hm ts hts
    rcases measPairs_block_mem tape.measurements tape.operations.length m hm
      with ⟨o, ho⟩
    have hmnts : measNodes m = ts := by simp [measNodes, hts]
    refine ⟨?_, ?_, ?_⟩
    · intro t ht
      have hmem : (t, o) ∈ g.nodes := by
        rw [hnodes]
        exact List.mem_append_right _ (ho t (hmnts ▸ ht))
      exact List.mem_map.mpr ⟨(t, o), hmem, rfl⟩
    · have hsub : ts.Sublist (addedNodes tape) := by
        rw [← hmnts]
        unfold addedNodes
        exact List.Sublist.trans (catMap_sublist measNodes tape.measurements m hm)
          (List.sublist_append_right tape.operations _)
      exact List.Nodup.sublist hsub (List.Nodup.of_map _ hwf.1)
    · intro t1 ht1 t2 ht2
      have h1 : (t1, o) ∈ g.nodes := by
        rw [hnodes]
        exact List.mem_append_right _ (ho t1 (hmnts ▸ ht1))
      have h2 : (t2, o) ∈ g.nodes := by
        rw [hnodes]
        exact List.mem_append_right _ (ho t2 (hmnts ▸ ht2))
      show ordLookup g.nodes t1 = ordLookup g.nodes t2
      rw [ordLookup_of_mem_nodup g.nodes t1 o hndk h1,
        ordLookup_of_mem_nodup g.nodes t2 o hndk h2]

/-- C9: the order counter is not incremented after a measurement whose
observable decomposes (a `Tensor`), so a measurement that follows one
receives the same order value as the decomposed measurement's sibling
terms. -/
theorem tape_to_graph_tensor_order_stall (tape : Tape) (g : Graph)
    (hwf : tape.Wf) (pre post : List Measurement) (m m2 : Measurement)
    (ts : List Node) (hms : tape.measurements = pre ++ m :: m2 :: post)
    (hts : m.tensor = some ts) (hg : tape_to_graph tape = some g) :
    ∀ t ∈ ts, ∀ n ∈ measNodes m2, g.orderOf n = g.orderOf t := by
  obtain ⟨-, hnodes⟩ := tape_to_graph_char tape g hwf hg
  have hfst := tape_nodes_fst tape g hwf hg
  have hndk : (g.nodes.map (fun p => p.1)).Nodup := by
    rw [hfst]
    exact List.Nodup.of_map _ hwf.1
  rcases measPairs_adj_mem pre tape.operations.length m m2 post ts hts
    with ⟨o, h1, h2⟩
  intro t ht n hn
  have hmt : (t, o) ∈ g.nodes := by
    rw [hnodes, hms]
    exact List.mem_append_right _ (h1 t ht)
  have hmn : (n, o) ∈ g.nodes := by
    rw [hnodes, hms]
    exact List.mem_append_right _ (h2 n hn)
  show ordLookup g.nodes n = ordLookup g.nodes t
  rw [ordLookup_of_mem_nodup g.nodes n o hndk hmn,
    ordLookup_of_mem_nodup g.nodes t o hndk hmt]

/-! ### Concrete witness tape: two ops, a Tensor measurement, an expval -/

def oW0 : Node := ⟨NodeId.base 10, NodeKind.op, [0]⟩

def oW1 : Node := ⟨NodeId.base 11, NodeKind.op, [0, 1]⟩

def tW0 : Node := ⟨NodeId.base 13, NodeKind.meas, [0]⟩

def tW1 : Node := ⟨NodeId.base 14, NodeKind.meas, [1]⟩

def mWT : Measurement := ⟨⟨NodeId.base 12, NodeKind.meas, []⟩, some [tW0, tW1]⟩

def mW2 : Measurement := ⟨⟨NodeId.base 15, NodeKind.meas, [0]⟩, none⟩

def tapeW : Tape := ⟨[0, 1], [oW0, oW1], [mWT, mW2]⟩

def gW : Graph := (tape_to_graph tapeW).getD Graph.empty

theorem tape_to_graph_chain_inv_witness : ChainInv gW :=
  tape_to_graph_chain_inv tapeW gW (by decide) (by rfl)

theorem tape_to_graph_order_assignment_witness :
    gW.orderOf (tapeW.operations.get ⟨1, by decide⟩) = 1 ∧
      gW.orderOf tW0 = gW.orderOf tW1 :=
  ⟨(tape_to_graph_order_assignment tapeW gW (by decide) (by rfl)).1 1 (by decide),
   (tape_to_graph_order_assignment tapeW gW (by decide) (by rfl)).2.2 mWT
     (by decide) [tW0, tW1] (by decide) |>.2.2 tW0 (by decide) tW1 (by decide)⟩

theorem tape_to_graph_tensor_order_stall_witness :
    gW.orderOf mW2.node = gW.orderOf tW0 :=
  tape_to_graph_tensor_order_stall tapeW gW (by decide) [] [] mWT mW2
    [tW0, tW1] (by rfl) (by rfl) (by rfl) tW0 (by decide) mW2.node (by decide)

/-! ### Identity-occurrence machinery for allocation freshness -/

/-- `occursIn a b`: `a` occurs as a sub-identifier of `b`. -/
def occursIn (a : NodeId) : NodeId → Bool
  | .base k => a == NodeId.base k
  | .cutMeas p w => a == NodeId.cutMeas p w || occursIn a p
  | .cutPrep p w => a == NodeId.cutPrep p w || occursIn a p

theorem occursIn_self (a : NodeId) : occursIn a a = true := by
  cases a <;> simp [occursIn]

theorem occursIn_size : ∀ (b a : NodeId), occursIn a b = true →
    a.size ≤ b.size := by
  intro b
  induction b with
  | base k =>
    intro a h
    simp only [occursIn, beq_iff_eq] at h
    subst h
    exact Nat.le_refl _
  | cutMeas p w ih =>
    intro a h
    simp only [occursIn, Bool.or_eq_true, beq_iff_eq] at h
    rcases h with rfl | h
    · exact Nat.le_refl _
    · have := ih a h
      simp only [NodeId.size]
      omega
  | cutPrep p w ih =>
    intro a h
    simp only [occursIn, Bool.or_eq_true, beq_iff_eq] at h
    rcases h with rfl | h
    · exact Nat.le_refl _
    · have := ih a h
      simp only [NodeId.size]
      omega

theorem occursIn_trans : ∀ (c b a : NodeId), occursIn a b = true →
    occursIn b c = true → occursIn a c = true := by
  intro c
  induction c with
  | base k =>
    intro b a h1 h2
    simp only [occursIn, beq_iff_eq] at h2
    subst h2
    exact h1
  | cutMeas p w ih =>
    intro b a h1 h2
    simp only [occursIn, Bool.or_eq_true, beq_iff_eq] at h2
    rcases h2 with rfl | h2
    · exact h1
    · simp only [occursIn, Bool.or_eq_true]
      exact Or.inr (ih b a h1 h2)
  | cutPrep p w ih =>
    intro b a h1 h2
    simp only [occursIn, Bool.or_eq_true, beq_iff_eq] at h2
    rcases h2 with rfl | h2
    · exact h1
    · simp only [occursIn, Bool.or_eq_true]
      exact Or.inr (ih b a h1 h2)

/-- Distinct graph nodes carry distinct identities (object identity). -/
def NodupIds (g : Graph) : Prop :=
  ∀ n ∈ g.keys, ∀ m ∈ g.keys, n.nid = m.nid → n = m

/-- No node identity properly occurs inside another: the arena counterpart of
"a live Python object is never a constituent of another live object's
identity", which makes the boundary ids allocated by the rewriter fresh. -/
def SubFree (g : Graph) : Prop :=
  ∀ n ∈ g.keys, ∀ m ∈ g.keys, occursIn n.nid m.nid = true → n.nid = m.nid

/-- Invariant of every graph this module produces (built from a well-formed
tape, then rewritten any number of times). -/
structure GoodGraph (g : Graph) : Prop where
  endp : EndpointsMem g
  noloop : NoSelfLoop g
  keysNodup : g.keys.Nodup
  wiresNodup : ∀ n ∈ g.keys, n.wires.Nodup
  ids : NodupIds g
  sub : SubFree g
  mono : OrderMono g

/-- The graphs reachable through this module: built by `tape_to_graph` from
a well-formed tape, then transformed by any sequence of single or batch
cut rewrites. -/
inductive Built : Graph → Prop where
  | base (tape : Tape) (g : Graph) : tape.Wf → tape_to_graph tape = some g →
      Built g
  | step (g : Graph) (node : Node) (g2 : Graph) : Built g →
      replace_wire_cut_node node g = some g2 → Built g2
  | batch (g g2 : Graph) : Built g → replace_wire_cut_nodes g = some g2 →
      Built g2

theorem tape_good (tape : Tape) (g : Graph) (hwf : tape.Wf)
    (hg : tape_to_graph tape = some g) : GoodGraph g := by
  obtain ⟨⟨wln, ord, hInv⟩, -⟩ := tape_to_graph_char tape g hwf hg
  have hkeys : g.keys = addedNodes tape := tape_nodes_fst tape g hwf hg
  have hknodup : g.keys.Nodup := by
    rw [hkeys]
    exact List.Nodup.of_map _ hwf.1
  refine ⟨hInv.endp, hInv.noloop, hknodup, ?_, ?_, ?_, hInv.mono⟩
  · intro n hn
    exact hwf.2.1 n (hkeys ▸ hn)
  · intro n hn m hm hEq
    exact List.inj_on_of_nodup_map hwf.1 (hkeys ▸ hn) (hkeys ▸ hm) hEq
  · intro n hn m hm hocc
    have hbase := hwf.2.2.1 m (hkeys ▸ hm)
    cases hmn : m.nid with
    | base k =>
      rw [hmn] at hocc
      simp only [occursIn, beq_iff_eq] at hocc
      rw [hocc]
    | cutMeas p w =>
      rw [hmn] at hbase
      simp [NodeId.isBase] at hbase
    | cutPrep p w =>
      rw [hmn] at hbase
      simp [NodeId.isBase] at hbase

theorem replace_some_mem {g g2 : Graph} {node : Node}
    (hrep : replace_wire_cut_node node g = some g2) : node ∈ g.keys := by
  unfold replace_wire_cut_node at hrep
  by_cases hm : node ∈ g.keys
  · exact hm
  · rw [if_neg hm] at hrep
    cases hrep

theorem goodGraph_freshCut {g : Graph} {node : Node} (hg : GoodGraph g)
    (hmem : node ∈ g.keys) : FreshCut g node := by
  intro w hw m hm
  constructor
  · intro hEq
    subst hEq
    have hocc : occursIn node.nid (cutMeasNode node w).nid = true := by
      simp [cutMeasNode, occursIn, occursIn_self]
    have h2 := hg.sub node hmem _ hm hocc
    exact NodeId.ne_cutMeas node.nid w (by simpa [cutMeasNode] using h2)
  · intro hEq
    subst hEq
    have hocc : occursIn node.nid (cutPrepNode node w).nid = true := by
      simp [cutPrepNode, occursIn, occursIn_self]
    have h2 := hg.sub node hmem _ hm hocc
    exact NodeId.ne_cutPrep node.nid w (by simpa [cutPrepNode] using h2)

theorem catMap_map {α β γ : Type} (f : α → List β) (h : β → γ) :
    ∀ l : List α, (catMap f l).map h = catMap (fun a => (f a).map h) l := by
  intro l
  induction l with
  | nil => rfl
  | cons a l ih => simp [catMap, ih]

theorem cutKeys_nodup (node : Node) :
    ∀ ws : List Nat, ws.Nodup →
      (catMap (fun w => [cutMeasNode node w, cutPrepNode node w]) ws).Nodup := by
  intro ws
  induction ws with
  | nil => exact fun _ => List.nodup_nil
  | cons w ws ih =>
    intro hnd
    have hnd2 := List.nodup_cons.mp hnd
    show ([cutMeasNode node w, cutPrepNode node w]
        ++ catMap (fun w => [cutMeasNode node w, cutPrepNode node w]) ws).Nodup
    apply List.Nodup.append
    · simp [cutMeasNode_ne_cutPrepNode node node w w]
    · exact ih hnd2.2
    · intro x hx1 hx2
      rcases mem_catMap.mp hx2 with ⟨w2, hw2, hx3⟩
      have hne : w2 ≠ w := fun hEq => hnd2.1 (hEq ▸ hw2)
      rcases List.mem_cons.mp hx1 with rfl | hx1b
      · rcases List.mem_cons.mp hx3 with hEq | hx4
        · exact hne ((cutMeasNode_inj hEq).symm)
        · exact cutMeasNode_ne_cutPrepNode node node w w2
            (List.mem_singleton.mp hx4)
      · have hxb := List.mem_singleton.mp hx1b
        subst hxb
        rcases List.mem_cons.mp hx3 with hEq | hx4
        · exact cutMeasNode_ne_cutPrepNode node node w2 w hEq.symm
        · exact hne ((cutPrepNode_inj (List.mem_singleton.mp hx4)).symm)

theorem replace_good {g g2 : Graph} {node : Node} (hg : GoodGraph g)
    (hrep : replace_wire_cut_node node g = some g2) : GoodGraph g2 := by
  have hmem := replace_some_mem hrep
  have hfresh := goodGraph_freshCut hg hmem
  have hnd : node.wires.Nodup := hg.wiresNodup node hmem
  have hkm := replace_keys_mem hrep hnd hfresh
  have hem := replace_edges_mem hrep hnd hfresh
  obtain ⟨hnodes, hedges, -⟩ := replace_spec hrep hnd hfresh
  have hfreshM : ∀ w ∈ node.wires, cutMeasNode node w ∉ g.keys :=
    fun w hw h => (hfresh w hw _ h).1 rfl
  have hfreshP : ∀ w ∈ node.wires, cutPrepNode node w ∉ g.keys :=
    fun w hw h => (hfresh w hw _ h).2 rfl
  have hordOld : ∀ n ∈ g.keys, n ≠ node → g2.orderOf n = g.orderOf n := by
    intro n hn hne
    show ordLookup g2.nodes n = ordLookup g.nodes n
    rw [hnodes, ordLookup_mem_append (removeNode_keys_mem.mpr ⟨hn, hne⟩)]
    exact ordLookup_filter_ne hne g.nodes
  have hordNew : ∀ w2 ∈ node.wires,
      g2.orderOf (cutMeasNode node w2) = g.orderOf node
        ∧ g2.orderOf (cutPrepNode node w2) = g.orderOf node := by
    intro w2 hw2
    have hconst : ∀ p ∈ catMap (fun w => [(cutMeasNode node w, g.orderOf node),
        (cutPrepNode node w, g.orderOf node)]) node.wires,
        p.2 = g.orderOf node := by
      intro p hp
      rcases mem_catMap.mp hp with ⟨w3, hw3, hmm⟩
      rcases List.mem_cons.mp hmm with rfl | hmm2
      · rfl
      · have := List.mem_singleton.mp hmm2
        subst this
        rfl
    constructor
    · show ordLookup g2.nodes (cutMeasNode node w2) = g.orderOf node
      rw [hnodes, ordLookup_append_not_mem]
      · apply ordLookup_const _ _ hconst
        exact List.mem_map.mpr ⟨(cutMeasNode node w2, g.orderOf node),
          mem_catMap.mpr ⟨w2, hw2, List.mem_cons_self _ _⟩, rfl⟩
      · intro p hp
        have hpk : p.1 ∈ (g.removeNode node).keys :=
          List.mem_map.mpr ⟨p, hp, rfl⟩
        have := (removeNode_keys_mem.mp hpk).1
        exact fun hEq => hfreshM w2 hw2 (hEq ▸ this)
    · show ordLookup g2.nodes (cutPrepNode node w2) = g.orderOf node
      rw [hnodes, ordLookup_append_not_mem]
      · apply ordLookup_const _ _ hconst
        exact List.mem_map.mpr ⟨(cutPrepNode node w2, g.orderOf node),
          mem_catMap.mpr ⟨w2, hw2, List.mem_cons_of_mem _
            (List.mem_singleton.mpr rfl)⟩, rfl⟩
      · intro p hp
        have hpk : p.1 ∈ (g.removeNode node).keys :=
          List.mem_map.mpr ⟨p, hp, rfl⟩
        have := (removeNode_keys_mem.mp hpk).1
        exact fun hEq => hfreshP w2 hw2 (hEq ▸ this)
  refine ⟨?_, ?_, ?_, ?_, ?_, ?_, ?_⟩
  · -- EndpointsMem
    intro e he
    rcases (hem e).mp he with ⟨hold, h1, h2⟩ | ⟨w2, hw2, hmm⟩
    · exact ⟨(hkm _).mpr (Or.inl ⟨(hg.endp e hold).1, h1⟩),
        (hkm _).mpr (Or.inl ⟨(hg.endp e hold).2, h2⟩)⟩
    · simp only [cutEdges] at hmm
      rcases List.mem_cons.mp hmm with rfl | hmm2
      · exact ⟨(hkm _).mpr (Or.inr ⟨w2, hw2, Or.inl rfl⟩),
          (hkm _).mpr (Or.inr ⟨w2, hw2, Or.inr rfl⟩)⟩
      · rcases List.mem_append.mp hmm2 with h3 | h3
        · rcases hpq : predecessorOnWire g node w2 with _ | p
          · rw [hpq] at h3; cases h3
          · rw [hpq] at h3
            have := List.mem_singleton.mp h3
            subst this
            have hpe := predOn_some_mem hpq
            exact ⟨(hkm _).mpr (Or.inl ⟨(hg.endp _ hpe).1, hg.noloop _ hpe⟩),
              (hkm _).mpr (Or.inr ⟨w2, hw2, Or.inl rfl⟩)⟩
        · rcases hsq : successorOnWire g node w2 with _ | v
          · rw [hsq] at h3; cases h3
          · rw [hsq] at h3
            have := List.mem_singleton.mp h3
            subst this
            have hve := succOn_some_mem hsq
            exact ⟨(hkm _).mpr (Or.inr ⟨w2, hw2, Or.inr rfl⟩),
              (hkm _).mpr (Or.inl ⟨(hg.endp _ hve).2, (hg.noloop _ hve).symm⟩)⟩
  · -- NoSelfLoop
    intro e he
    rcases (hem e).mp he with ⟨hold, -, -⟩ | ⟨w2, hw2, hmm⟩
    · exact hg.noloop e hold
    · simp only [cutEdges] at hmm
      rcases List.mem_cons.mp hmm with rfl | hmm2
      · exact cutMeasNode_ne_cutPrepNode node node w2 w2
      · rcases List.mem_append.mp hmm2 with h3 | h3
        · rcases hpq : predecessorOnWire g node w2 with _ | p
          · rw [hpq] at h3; cases h3
          · rw [hpq] at h3
            have := List.mem_singleton.mp h3
            subst this
            have hpk : p ∈ g.keys := (hg.endp _ (predOn_some_mem hpq)).1
            intro hEq
            have hEq2 : p = cutMeasNode node w2 := hEq
            rw [hEq2] at hpk
            exact hfreshM w2 hw2 hpk
        · rcases hsq : successorOnWire g node w2 with _ | v
          · rw [hsq] at h3; cases h3
          · rw [hsq] at h3
            have := List.mem_singleton.mp h3
            subst this
            have hvk : v ∈ g.keys := (hg.endp _ (succOn_some_mem hsq)).2
            intro hEq
            have hEq2 : cutPrepNode node w2 = v := hEq
            rw [← hEq2] at hvk
            exact hfreshP w2 hw2 hvk
  · -- keys Nodup
    have hkeq : g2.keys = (g.removeNode node).keys
        ++ catMap (fun w => [cutMeasNode node w, cutPrepNode node w]) node.wires := by
      show g2.nodes.map (fun p => p.1) = _
      rw [hnodes, List.map_append, catMap_map]
      rfl
    rw [hkeq]
    apply List.Nodup.append
    · exact List.Nodup.sublist (List.Sublist.map _ (List.filter_sublist g.nodes))
        hg.keysNodup
    · exact cutKeys_nodup node node.wires hnd
    · intro x hx1 hx2
      have hxk := (removeNode_keys_mem.mp hx1).1
      rcases mem_catMap.mp hx2 with ⟨w2, hw2, hx3⟩
      rcases List.mem_cons.mp hx3 with rfl | hx4
      · exact hfreshM w2 hw2 hxk
      · have := List.mem_singleton.mp hx4
        subst this
        exact hfreshP w2 hw2 hxk
  · -- wires Nodup
    intro n hn
    rcases (hkm n).mp hn with ⟨hin, -⟩ | ⟨w2, hw2, rfl | rfl⟩
    · exact hg.wiresNodup n hin
    · simp [cutMeasNode]
    · simp [cutPrepNode]
  · -- NodupIds
    intro n hn m hm hEq
    rcases (hkm n).mp hn with ⟨hin, hne⟩ | ⟨w2, hw2, hq⟩
    · rcases (hkm m).mp hm with ⟨him, hnem⟩ | ⟨w3, hw3, hq2⟩
      · exact hg.ids n hin m him hEq
      · exfalso
        rcases hq2 with rfl | rfl
        · have hocc : occursIn node.nid n.nid = true := by
            rw [hEq]
            simp [cutMeasNode, occursIn, occursIn_self]
          have h2 := hg.sub node hmem n hin hocc
          exact hne (hg.ids n hin node hmem h2.symm)
        · have hocc : occursIn node.nid n.nid = true := by
            rw [hEq]
            simp [cutPrepNode, occursIn, occursIn_self]
          have h2 := hg.sub node hmem n hin hocc
          exact hne (hg.ids n hin node hmem h2.symm)
    · rcases (hkm m).mp hm with ⟨him, hnem⟩ | ⟨w3, hw3, hq2⟩
      · exfalso
        rcases hq with rfl | rfl
        · have hocc : occursIn node.nid m.nid = true := by
            rw [← hEq]
            simp [cutMeasNode, occursIn, occursIn_self]
          have h2 := hg.sub node hmem m him hocc
          exact hnem (hg.ids m him node hmem h2.symm)
        · have hocc : occursIn node.nid m.nid = true := by
            rw [← hEq]
            simp [cutPrepNode, occursIn, occursIn_self]
          have h2 := hg.sub node hmem m him hocc
          exact hnem (hg.ids m him node hmem h2.symm)
      · rcases hq with rfl | rfl <;> rcases hq2 with rfl | rfl
        · have hww : w2 = w3 := by simpa [cutMeasNode] using hEq
          rw [hww]
        · exact absurd hEq (by simp [cutMeasNode, cutPrepNode])
        · exact absurd hEq (by simp [cutMeasNode, cutPrepNode])
        · have hww : w2 = w3 := by simpa [cutPrepNode] using hEq
          rw [hww]
  · -- SubFree
    intro n hn m hm hocc
    rcases (hkm n).mp hn with ⟨hin, hne⟩ | ⟨w2, hw2, hq⟩
    · rcases (hkm m).mp hm with ⟨him, hnem⟩ | ⟨w3, hw3, hq2⟩
      · exact hg.sub n hin m him hocc
      · exfalso
        rcases hq2 with rfl | rfl
        · simp only [cutMeasNode, occursIn, Bool.or_eq_true, beq_iff_eq] at hocc
          rcases hocc with hEq | hocc2
          · have hocc3 : occursIn node.nid n.nid = true := by
              rw [hEq]
              simp [occursIn, occursIn_self]
            have h2 := hg.sub node hmem n hin hocc3
            exact hne (hg.ids n hin node hmem h2.symm)
          · have h2 := hg.sub n hin node hmem hocc2
            exact hne (hg.ids n hin node hmem h2)
        · simp only [cutPrepNode, occursIn, Bool.or_eq_true, beq_iff_eq] at hocc
          rcases hocc with hEq | hocc2
          · have hocc3 : occursIn node.nid n.nid = true := by
              rw [hEq]
              simp [occursIn, occursIn_self]
            have h2 := hg.sub node hmem n hin hocc3
            exact hne (hg.ids n hin node hmem h2.symm)
          · have h2 := hg.sub n hin node hmem hocc2
            exact hne (hg.ids n hin node hmem h2)
    · rcases (hkm m).mp hm with ⟨him, hnem⟩ | ⟨w3, hw3, hq2⟩
      · exfalso
        rcases hq with rfl | rfl
        · have hself : occursIn node.nid (NodeId.cutMeas node.nid w2) = true := by
            simp [occursIn, occursIn_self]
          have hocc2 := occursIn_trans m.nid _ _ hself hocc
          have hEq := hg.sub node hmem m him hocc2
          rw [← hEq] at hocc
          have := occursIn_size node.nid _ hocc
          simp only [NodeId.size] at this
          omega
        · have hself : occursIn node.nid (NodeId.cutPrep node.nid w2) = true := by
            simp [occursIn, occursIn_self]
          have hocc2 := occursIn_trans m.nid _ _ hself hocc
          have hEq := hg.sub node hmem m him hocc2
          rw [← hEq] at hocc
          have := occursIn_size node.nid _ hocc
          simp only [NodeId.size] at this
          omega
      · rcases hq with rfl | rfl <;> rcases hq2 with rfl | rfl <;>
          simp only [cutMeasNode, cutPrepNode, occursIn, Bool.or_eq_true,
            beq_iff_eq] at hocc ⊢ <;>
          rcases hocc with hEq | hocc2
        · exact hEq
        · exfalso
          have := occursIn_size node.nid _ hocc2
          simp only [NodeId.size] at this
          omega
        · exact hEq
        · exfalso
          have := occursIn_size node.nid _ hocc2
          simp only [NodeId.size] at this
          omega
        · exact hEq
        · exfalso
          have := occursIn_size node.nid _ hocc2
          simp only [NodeId.size] at this
          omega
        · exact hEq
        · exfalso
          have := occursIn_size node.nid _ hocc2
          simp only [NodeId.size] at this
          omega
  · -- OrderMono
    intro e he
    rcases (hem e).mp he with ⟨hold, h1, h2⟩ | ⟨w2, hw2, hmm⟩
    · rw [hordOld e.1 (hg.endp e hold).1 h1, hordOld e.2.1 (hg.endp e hold).2 h2]
      exact hg.mono e hold
    · simp only [cutEdges] at hmm
      rcases List.mem_cons.mp hmm with rfl | hmm2
      · show g2.orderOf (cutMeasNode node w2) ≤ g2.orderOf (cutPrepNode node w2)
        rw [(hordNew w2 hw2).1, (hordNew w2 hw2).2]
      · rcases List.mem_append.mp hmm2 with h3 | h3
        · rcases hpq : predecessorOnWire g node w2 with _ | p
          · rw [hpq] at h3; cases h3
          · rw [hpq] at h3
            have := List.mem_singleton.mp h3
            subst this
            show g2.orderOf p ≤ g2.orderOf (cutMeasNode node w2)
            have hpe := predOn_some_mem hpq
            rw [(hordNew w2 hw2).1,
              hordOld p (hg.endp _ hpe).1 (hg.noloop _ hpe)]
            exact hg.mono _ hpe
        · rcases hsq : successorOnWire g node w2 with _ | v
          · rw [hsq] at h3; cases h3
          · rw [hsq] at h3
            have := List.mem_singleton.mp h3
            subst this
            show g2.orderOf (cutPrepNode node w2) ≤ g2.orderOf v
            have hve := succOn_some_mem hsq
            rw [(hordNew w2 hw2).2,
              hordOld v (hg.endp _ hve).2 (hg.noloop _ hve).symm]
            exact hg.mono _ hve

theorem replaceLoop_good : ∀ (l : List Node) (g g2 : Graph),
    GoodGraph g → replaceLoop g l = some g2 → GoodGraph g2 := by
  intro l
  induction l with
  | nil =>
    intro g g2 hg h
    simp only [replaceLoop, Option.some.injEq] at h
    subst h
    exact hg
  | cons op l ih =>
    intro g g2 hg h
    simp only [replaceLoop] at h
    by_cases hk : op.kind = NodeKind.wireCut
    · rw [if_pos hk] at h
      cases hr : replace_wire_cut_node op g with
      | none => rw [hr] at h; cases h
      | some g3 =>
        rw [hr] at h
        exact ih g3 g2 (replace_good hg hr) h
    · rw [if_neg hk] at h
      exact ih g g2 hg h

theorem built_good : ∀ g : Graph, Built g → GoodGraph g := by
  intro g hb
  induction hb with
  | base tape g hwf hg => exact tape_good tape g hwf hg
  | step g node g2 hb hrep ih => exact replace_good ih hrep
  | batch g g2 hb hrep ih => exact replaceLoop_good g.keys g g2 ih hrep

/-- C4: in every graph produced by `tape_to_graph` on a well-formed tape,
and in every graph obtained from such a graph by `replace_wire_cut_node` or
`replace_wire_cut_nodes`, the `order` attribute is non-decreasing along
every directed edge. -/
theorem built_order_mono (g : Graph) (h : Built g) : OrderMono g :=
  (built_good g h).mono

theorem built_order_mono_witness : OrderMono gMark2 :=
  built_order_mono gMark2
    (Built.step gMark nM gMark2
      (Built.base ⟨[0], [nA, nM, nC], []⟩ gMark (by decide) (by decide))
      (by decide))
